import Mathlib

/-!
Verification of the texlab analysis core against its specification.

This file shallowly embeds two subsystems of the repository:

* the scope-sensitive recursive-descent LaTeX parser
  (`src/syntax/latex/parser.rs`), and
* the section-tree / outline builder
  (`src/features/symbol/section/mod.rs`).

The Rust parser recurses while consuming tokens from a peekable iterator.
The embedding passes the remaining token list explicitly and uses a fuel
parameter to make the mutual recursion structural; running out of fuel is
a distinct outcome (`PResult.fuelOut`) which is proved unreachable for the
fuel bound baked into `parse`, so termination of the original recursion is
a theorem rather than an assumption.  A Rust `unwrap()` on `None` or an
out-of-bounds index is modelled by the distinct outcome `PResult.panic`.
-/

namespace Texlab

/-- Zero-based line / UTF-16 character position (`language_server::types::Position`). -/
structure Position where
  line : Nat
  character : Nat
deriving DecidableEq, Repr

/-- Half-open source range `[start, endPos)` (`language_server::types::Range`).
The Rust field `end` is a Lean keyword, hence `endPos`. -/
structure Range where
  start : Position
  endPos : Position
deriving DecidableEq, Repr

instance : Inhabited Position := ⟨⟨0, 0⟩⟩

/-- `Range::default()`: the empty range `(0,0)-(0,0)`. -/
instance : Inhabited Range := ⟨⟨⟨0, 0⟩, ⟨0, 0⟩⟩⟩

/-- Lexicographic order on positions, as used by the spec's
`start ≤ p < end` containment convention (§6). -/
def Position.le (a b : Position) : Prop :=
  a.line < b.line ∨ (a.line = b.line ∧ a.character ≤ b.character)

def Position.lt (a b : Position) : Prop :=
  a.line < b.line ∨ (a.line = b.line ∧ a.character < b.character)

instance : LE Position := ⟨Position.le⟩

instance : LT Position := ⟨Position.lt⟩

instance (a b : Position) : Decidable (a ≤ b) :=
  inferInstanceAs (Decidable (a.line < b.line ∨ (a.line = b.line ∧ a.character ≤ b.character)))

instance (a b : Position) : Decidable (a < b) :=
  inferInstanceAs (Decidable (a.line < b.line ∨ (a.line = b.line ∧ a.character < b.character)))

theorem Position.le_refl (a : Position) : a ≤ a := Or.inr ⟨rfl, Nat.le_refl _⟩

theorem Position.le_trans {a b c : Position} (h1 : a ≤ b) (h2 : b ≤ c) : a ≤ c := by
  rcases h1 with h1 | ⟨e1, h1⟩ <;> rcases h2 with h2 | ⟨e2, h2⟩
  · exact Or.inl (Nat.lt_trans h1 h2)
  · exact Or.inl (e2 ▸ h1)
  · exact Or.inl (e1 ▸ h2)
  · exact Or.inr ⟨e1.trans e2, Nat.le_trans h1 h2⟩

theorem Position.lt_of_lt_of_le {a b c : Position} (h1 : a < b) (h2 : b ≤ c) : a < c := by
  rcases h1 with h1 | ⟨e1, h1⟩ <;> rcases h2 with h2 | ⟨e2, h2⟩
  · exact Or.inl (Nat.lt_trans h1 h2)
  · exact Or.inl (e2 ▸ h1)
  · exact Or.inl (e1 ▸ h2)
  · exact Or.inr ⟨e1.trans e2, Nat.lt_of_lt_of_le h1 h2⟩

theorem Position.le_of_lt_le {a b c : Position} (h1 : a ≤ b) (h2 : b < c) : a < c := by
  rcases h1 with h1 | ⟨e1, h1⟩ <;> rcases h2 with h2 | ⟨e2, h2⟩
  · exact Or.inl (Nat.lt_trans h1 h2)
  · exact Or.inl (e2 ▸ h1)
  · exact Or.inl (e1 ▸ h2)
  · exact Or.inr ⟨e1.trans e2, Nat.lt_of_le_of_lt h1 h2⟩

theorem Position.le_of_lt {a b : Position} (h : a < b) : a ≤ b := by
  rcases h with h | ⟨e, h⟩
  · exact Or.inl h
  · exact Or.inr ⟨e, Nat.le_of_lt h⟩

/-- A position `p` lies in a half-open range: `start ≤ p < end` (§6). -/
def posIn (p : Position) (r : Range) : Prop :=
  r.start ≤ p ∧ p < r.endPos

instance (p : Position) (r : Range) : Decidable (posIn p r) :=
  inferInstanceAs (Decidable (_ ∧ _))

/-- Range `inner` is contained in `outer` under the positional
`start ≤ p < end` convention of §6. -/
def rangeSub (inner outer : Range) : Prop :=
  ∀ p : Position, posIn p inner → posIn p outer

theorem rangeSub_of_endpoints {inner outer : Range}
    (h1 : outer.start ≤ inner.start) (h2 : inner.endPos ≤ outer.endPos) :
    rangeSub inner outer := by
  intro p hp
  exact ⟨Position.le_trans h1 hp.1, Position.lt_of_lt_of_le hp.2 h2⟩

/-- `TokenKind` from `src/syntax/latex/parser.rs` / the lexer. -/
inductive TokenKind where
  | word
  | command
  | comma
  | math
  | beginGroup
  | endGroup
  | beginOptions
  | endOptions
deriving DecidableEq, Repr

/-- A lexed token: kind, source range and text. -/
structure Token where
  range : Range
  text : String
  kind : TokenKind
deriving DecidableEq, Repr

/-- `SyntaxNode::start` on a token. -/
def Token.start (t : Token) : Position := t.range.start

/-- `SyntaxNode::end` on a token. -/
def Token.endPos (t : Token) : Position := t.range.endPos

/-- `GroupKind` of a `Group` node: `{...}` or `[...]`. -/
inductive GroupKind where
  | group
  | options
deriving DecidableEq, Repr

/-- Parser `Scope` (`src/syntax/latex/parser.rs`). -/
inductive Scope where
  | root
  | group
  | options
deriving DecidableEq, Repr

/-- The LaTeX syntax tree node.  The Rust code stores nodes in an arena
(`Ast<Node>`) and connects parent to children by index; the embedding
stores each node's children inline, which represents exactly the
parent/child edges created by `Parser::connect`. -/
inductive Node where
  | root (range : Range) (children : List Node)
  | group (range : Range) (left : Token) (kind : GroupKind) (right : Option Token)
      (children : List Node)
  | command (range : Range) (name : Token) (children : List Node)
  | text (range : Range) (words : List Token)
  | comma (range : Range) (token : Token)
  | math (range : Range) (token : Token)

/-- `SyntaxNode::range` of a node. -/
def Node.rangeOf : Node → Range
  | .root r _ => r
  | .group r _ _ _ _ => r
  | .command r _ _ => r
  | .text r _ => r
  | .comma r _ => r
  | .math r _ => r

/-- The children connected to a node by `Parser::connect`. -/
def Node.childrenOf : Node → List Node
  | .root _ cs => cs
  | .group _ _ _ _ cs => cs
  | .command _ _ cs => cs
  | .text _ _ => []
  | .comma _ _ => []
  | .math _ _ => []

mutual

/-- Number of `Root` nodes in a tree. -/
def countRoot : Node → Nat
  | .root _ cs => 1 + countRootList cs
  | .group _ _ _ _ cs => countRootList cs
  | .command _ _ cs => countRootList cs
  | .text _ _ => 0
  | .comma _ _ => 0
  | .math _ _ => 0

/-- Number of `Root` nodes in a forest. -/
def countRootList : List Node → Nat
  | [] => 0
  | n :: ns => countRoot n + countRootList ns

end

/-- Outcome of a step of the embedded parser.  `panic` models a Rust
panic (an `unwrap()` of `None` or an out-of-bounds index); `fuelOut`
models exhaustion of the structural fuel and is proved unreachable. -/
inductive PResult (α : Type) where
  | ok (val : α)
  | panic
  | fuelOut
deriving DecidableEq

/-- The word-collecting loop of `Parser::text`: a token is taken while it
is a `Word`, a `BeginOptions`, or an `EndOptions` outside `Options` scope
(`opts` in the Rust code). -/
def textTakes (scope : Scope) (t : Token) : Bool :=
  t.kind = TokenKind.word ∨ t.kind = TokenKind.beginOptions ∨
    (t.kind = TokenKind.endOptions ∧ scope ≠ Scope.options)

/-- Splits the input into the word run consumed by `Parser::text` and the
remaining tokens. -/
def takeWords (scope : Scope) : List Token → List Token × List Token
  | [] => ([], [])
  | t :: rest =>
    if textTakes scope t then
      let (ws, r) := takeWords scope rest
      (t :: ws, r)
    else ([], t :: rest)

/-- `Parser::text`: aggregates the word run into one `Text` node whose
range is `[words[0].start, words[words.len()-1].end]`.  Indexing an empty
`words` vector would panic. -/
def text (scope : Scope) (ts : List Token) : PResult (Node × List Token) :=
  match takeWords scope ts with
  | ([], _) => .panic
  | (w :: ws, rest) =>
    .ok (.text ⟨w.start, (ws.getLastD w).endPos⟩ (w :: ws), rest)

/-- `Parser::comma`: `tokens.next().unwrap()` then a `Comma` node with the
token's range. -/
def comma (ts : List Token) : PResult (Node × List Token) :=
  match ts with
  | [] => .panic
  | t :: rest => .ok (.comma t.range t, rest)

/-- `Parser::math`: `tokens.next().unwrap()` then a `Math` node with the
token's range. -/
def math (ts : List Token) : PResult (Node × List Token) :=
  match ts with
  | [] => .panic
  | t :: rest => .ok (.math t.range t, rest)

/-- The scope entered by a group of the given kind. -/
def groupScope : GroupKind → Scope
  | .group => .group
  | .options => .options

/-- The closing token kind expected by a group of the given kind. -/
def rightKind : GroupKind → TokenKind
  | .group => TokenKind.endGroup
  | .options => TokenKind.endOptions

/-- The sequencing step shared by the loop of `Parser::content` and the
argument loop of `Parser::command`: parse one item, push the resulting
node, and continue with the remaining tokens. -/
def andThen (res : PResult (Node × List Token))
    (k : List Token → PResult (List Node × List Token)) :
    PResult (List Node × List Token) :=
  match res with
  | .ok (n, ts') =>
    match k ts' with
    | .ok (ns, r) => .ok (n :: ns, r)
    | e => e
  | .panic => .panic
  | .fuelOut => .fuelOut

mutual

/-- `Parser::content`: dispatches on the peeked token kind until the input
is exhausted or a scope-terminating token is seen.  An `EndGroup` in
`Root` scope is consumed and discarded; an `EndOptions` outside `Options`
scope is handed to `Parser::text`. -/
def content : Nat → Scope → List Token → PResult (List Node × List Token)
  | 0, _, _ => .fuelOut
  | _ + 1, _, [] => .ok ([], [])
  | fuel + 1, scope, t :: rest =>
    match t.kind with
    | .word => andThen (text scope (t :: rest)) (content fuel scope)
    | .beginOptions => andThen (text scope (t :: rest)) (content fuel scope)
    | .command => andThen (command fuel (t :: rest)) (content fuel scope)
    | .comma => andThen (comma (t :: rest)) (content fuel scope)
    | .math => andThen (math (t :: rest)) (content fuel scope)
    | .beginGroup => andThen (group fuel .group (t :: rest)) (content fuel scope)
    | .endGroup =>
      if scope = Scope.root then content fuel scope rest
      else .ok ([], t :: rest)
    | .endOptions =>
      if scope = Scope.options then .ok ([], t :: rest)
      else andThen (text scope (t :: rest)) (content fuel scope)

/-- `Parser::group`: consumes the opening delimiter (`next().unwrap()`),
parses content in the nested scope, optionally consumes the matching
closing delimiter, and computes the end range with the fallback chain
`right.end / last child's end / left.end`. -/
def group : Nat → GroupKind → List Token → PResult (Node × List Token)
  | 0, _, _ => .fuelOut
  | _ + 1, _, [] => .panic
  | fuel + 1, kind, left :: rest =>
    match content fuel (groupScope kind) rest with
    | .ok (children, ts1) =>
      match ts1 with
      | r :: ts2 =>
        if r.kind = rightKind kind then
          .ok (.group ⟨left.start, r.endPos⟩ left kind (some r) children, ts2)
        else
          .ok (.group ⟨left.start, ((children.getLast?).map Node.rangeOf).elim
              left.endPos Range.endPos⟩ left kind none children, r :: ts2)
      | [] =>
        .ok (.group ⟨left.start, ((children.getLast?).map Node.rangeOf).elim
            left.endPos Range.endPos⟩ left kind none children, [])
    | .panic => .panic
    | .fuelOut => .fuelOut

/-- `Parser::command`: consumes the name token (`next().unwrap()`), then
greedily attaches every immediately following group/options argument; the
range spans name start to last argument end, or just the name. -/
def command : Nat → List Token → PResult (Node × List Token)
  | 0, _ => .fuelOut
  | _ + 1, [] => .panic
  | fuel + 1, name :: rest =>
    match commandArgs fuel rest with
    | .ok (args, ts') =>
      .ok (.command ⟨name.start, ((args.getLast?).map Node.rangeOf).elim
          name.endPos Range.endPos⟩ name args, ts')
    | .panic => .panic
    | .fuelOut => .fuelOut

/-- The argument loop of `Parser::command`: while the peeked token is a
`BeginGroup` or `BeginOptions`, parse a group of the matching kind. -/
def commandArgs : Nat → List Token → PResult (List Node × List Token)
  | 0, _ => .fuelOut
  | _ + 1, [] => .ok ([], [])
  | fuel + 1, t :: rest =>
    match t.kind with
    | .beginGroup => andThen (group fuel .group (t :: rest)) (commandArgs fuel)
    | .beginOptions => andThen (group fuel .options (t :: rest)) (commandArgs fuel)
    | _ => .ok ([], t :: rest)

end

/-- The fuel with which `parse` runs `content`; proved sufficient. -/
def parseFuel (ts : List Token) : Nat := 4 * ts.length + 4

/-- `Parser::parse`: parses the whole input in `Root` scope and wraps the
children in a single `Root` node whose range is
`[children[0].start, children[len-1].end]`, or `(0,0)-(0,0)` when there
are no children. -/
def parse (ts : List Token) : PResult Node :=
  match content (parseFuel ts) .root ts with
  | .ok (children, _) =>
    match children with
    | [] => .ok (.root ⟨⟨0, 0⟩, ⟨0, 0⟩⟩ [])
    | c :: cs =>
      .ok (.root ⟨c.rangeOf.start, ((cs.getLastD c).rangeOf).endPos⟩ (c :: cs))
  | .panic => .panic
  | .fuelOut => .fuelOut

theorem takeWords_append {scope : Scope} :
    ∀ {ts ws r : List Token}, takeWords scope ts = (ws, r) → ws ++ r = ts := by
  intro ts
  induction ts with
  | nil => intro ws r h; simp [takeWords] at h; simp [h.1, h.2]
  | cons t rest ih =>
    intro ws r h
    by_cases htk : textTakes scope t
    · simp [takeWords, htk] at h
      rcases h with ⟨h1, h2⟩
      cases hrec : takeWords scope rest with
      | mk ws' r' =>
        rw [hrec] at h1 h2
        subst h1; subst h2
        simpa using ih hrec
    · simp [takeWords, htk] at h
      simp [← h.1, ← h.2]

theorem text_ok {scope : Scope} {ts ts' : List Token} {n : Node}
    (h : text scope ts = .ok (n, ts')) :
    ∃ w ws, takeWords scope ts = (w :: ws, ts') ∧
      n = .text ⟨w.start, (ws.getLastD w).endPos⟩ (w :: ws) ∧
      (w :: ws) ++ ts' = ts := by
  unfold text at h
  cases htw : takeWords scope ts with
  | mk ws r =>
    rw [htw] at h
    cases ws with
    | nil => simp at h
    | cons w ws =>
      simp only [PResult.ok.injEq, Prod.mk.injEq] at h
      obtain ⟨h1, h2⟩ := h
      subst h2
      exact ⟨w, ws, rfl, h1.symm, takeWords_append htw⟩

theorem text_length {scope : Scope} {ts ts' : List Token} {n : Node}
    (h : text scope ts = .ok (n, ts')) : ts'.length < ts.length := by
  obtain ⟨w, ws, -, -, happ⟩ := text_ok h
  have := congrArg List.length happ
  simp at this
  omega

theorem text_no_panic {scope : Scope} {t : Token} {rest : List Token}
    (h : textTakes scope t = true) : text scope (t :: rest) ≠ .panic := by
  unfold text takeWords
  rw [if_pos h]
  cases takeWords scope rest with
  | mk ws r => simp

theorem text_no_fuelOut {scope : Scope} {ts : List Token} :
    text scope ts ≠ .fuelOut := by
  unfold text
  cases takeWords scope ts with
  | mk ws r =>
    cases ws <;> simp

theorem text_countRoot {scope : Scope} {ts ts' : List Token} {n : Node}
    (h : text scope ts = .ok (n, ts')) : countRoot n = 0 := by
  obtain ⟨w, ws, -, hn, -⟩ := text_ok h
  rw [hn]; rfl

theorem andThen_ok {res : PResult (Node × List Token)}
    {k : List Token → PResult (List Node × List Token)}
    {ns : List Node} {rest : List Token}
    (h : andThen res k = .ok (ns, rest)) :
    ∃ n ts' ns', res = .ok (n, ts') ∧ k ts' = .ok (ns', rest) ∧ ns = n :: ns' := by
  cases res with
  | ok val =>
    obtain ⟨n, ts'⟩ := val
    cases hk : k ts' with
    | ok val2 =>
      obtain ⟨ns', r⟩ := val2
      simp [andThen, hk] at h
      exact ⟨n, ts', ns', rfl, by rw [hk, h.2], h.1.symm⟩
    | panic => simp [andThen, hk] at h
    | fuelOut => simp [andThen, hk] at h
  | panic => simp [andThen] at h
  | fuelOut => simp [andThen] at h

theorem andThen_ne_panic {res : PResult (Node × List Token)}
    {k : List Token → PResult (List Node × List Token)}
    (h1 : res ≠ PResult.panic)
    (h2 : ∀ n ts', res = .ok (n, ts') → k ts' ≠ PResult.panic) :
    andThen res k ≠ PResult.panic := by
  cases res with
  | ok val =>
    obtain ⟨n, ts'⟩ := val
    cases hk : k ts' with
    | ok val2 => obtain ⟨ns', r⟩ := val2; simp [andThen, hk]
    | panic => exact absurd hk (h2 n ts' rfl)
    | fuelOut => simp [andThen, hk]
  | panic => exact absurd rfl h1
  | fuelOut => simp [andThen]

theorem andThen_ne_fuelOut {res : PResult (Node × List Token)}
    {k : List Token → PResult (List Node × List Token)}
    (h1 : res ≠ PResult.fuelOut)
    (h2 : ∀ n ts', res = .ok (n, ts') → k ts' ≠ PResult.fuelOut) :
    andThen res k ≠ PResult.fuelOut := by
  cases res with
  | ok val =>
    obtain ⟨n, ts'⟩ := val
    cases hk : k ts' with
    | ok val2 => obtain ⟨ns', r⟩ := val2; simp [andThen, hk]
    | panic => simp [andThen, hk]
    | fuelOut => exact absurd hk (h2 n ts' rfl)
  | panic => simp [andThen]
  | fuelOut => exact absurd rfl h1

/-- Soundness facts for `content` at a given fuel: no panic, the unread
rest never grows, and no `Root` node is ever produced. -/
def contentSound (fuel : Nat) : Prop :=
  ∀ scope ts, content fuel scope ts ≠ PResult.panic ∧
    ∀ ns rest, content fuel scope ts = .ok (ns, rest) →
      rest.length ≤ ts.length ∧ countRootList ns = 0

/-- Soundness facts for `group`: no panic on nonempty input, strict
consumption, and no `Root` node produced. -/
def groupSound (fuel : Nat) : Prop :=
  ∀ kind ts, (ts ≠ [] → group fuel kind ts ≠ PResult.panic) ∧
    ∀ n rest, group fuel kind ts = .ok (n, rest) →
      rest.length < ts.length ∧ countRoot n = 0

/-- Soundness facts for `command`: no panic on nonempty input, strict
consumption, and no `Root` node produced. -/
def commandSound (fuel : Nat) : Prop :=
  ∀ ts, (ts ≠ [] → command fuel ts ≠ PResult.panic) ∧
    ∀ n rest, command fuel ts = .ok (n, rest) →
      rest.length < ts.length ∧ countRoot n = 0

/-- Soundness facts for the argument loop of `command`. -/
def commandArgsSound (fuel : Nat) : Prop :=
  ∀ ts, commandArgs fuel ts ≠ PResult.panic ∧
    ∀ ns rest, commandArgs fuel ts = .ok (ns, rest) →
      rest.length ≤ ts.length ∧ countRootList ns = 0

theorem parserSound :
    ∀ fuel, contentSound fuel ∧ groupSound fuel ∧ commandSound fuel ∧
      commandArgsSound fuel := by
  intro fuel
  induction fuel with
  | zero =>
    refine ⟨?_, ?_, ?_, ?_⟩
    · intro scope ts; exact ⟨by simp [content], by intro ns rest h; simp [content] at h⟩
    · intro kind ts; exact ⟨fun _ => by simp [group], by intro n rest h; simp [group] at h⟩
    · intro ts; exact ⟨fun _ => by simp [command], by intro n rest h; simp [command] at h⟩
    · intro ts
      exact ⟨by simp [commandArgs], by intro ns rest h; simp [commandArgs] at h⟩
  | succ fuel ih =>
    obtain ⟨ihC, ihG, ihCmd, ihCA⟩ := ih
    have hGroup : groupSound (fuel + 1) := by
      intro kind ts
      cases ts with
      | nil =>
        refine ⟨fun hne => absurd rfl hne, ?_⟩
        intro n rest h; simp [group] at h
      | cons left rest =>
        cases hc : content fuel (groupScope kind) rest with
        | ok val =>
          obtain ⟨children, ts1⟩ := val
          have hlen := ((ihC (groupScope kind) rest).2 children ts1 hc).1
          have hroots := ((ihC (groupScope kind) rest).2 children ts1 hc).2
          cases ts1 with
          | nil =>
            refine ⟨fun _ => ?_, ?_⟩
            · simp [group, hc]
            · intro n rest' h
              simp [group, hc] at h
              obtain ⟨h1, h2⟩ := h
              subst h2
              refine ⟨by simp, ?_⟩
              subst h1; simpa [countRoot] using hroots
          | cons r ts2 =>
            by_cases hrk : r.kind = rightKind kind
            · refine ⟨fun _ => ?_, ?_⟩
              · simp [group, hc, hrk]
              · intro n rest' h
                simp [group, hc, hrk] at h
                obtain ⟨h1, h2⟩ := h
                subst h2
                refine ⟨by simp at hlen ⊢; omega, ?_⟩
                subst h1; simpa [countRoot] using hroots
            · refine ⟨fun _ => ?_, ?_⟩
              · simp [group, hc, hrk]
              · intro n rest' h
                simp [group, hc, hrk] at h
                obtain ⟨h1, h2⟩ := h
                subst h2
                refine ⟨by simp at hlen ⊢; omega, ?_⟩
                subst h1; simpa [countRoot] using hroots
        | panic =>
          refine ⟨fun _ => ?_, ?_⟩
          · have := (ihC (groupScope kind) rest).1
            exact absurd hc this
          · intro n rest' h; simp [group, hc] at h
        | fuelOut =>
          refine ⟨fun _ => ?_, ?_⟩
          · simp [group, hc]
          · intro n rest' h; simp [group, hc] at h
    have hCA : commandArgsSound (fuel + 1) := by
      intro ts
      cases ts with
      | nil =>
        refine ⟨by simp [commandArgs], ?_⟩
        intro ns rest h
        simp [commandArgs] at h
        obtain ⟨h1, h2⟩ := h
        subst h1; subst h2
        simp [countRootList]
      | cons t rest =>
        have main : ∀ gk : GroupKind,
            andThen (group fuel gk (t :: rest)) (commandArgs fuel) ≠ PResult.panic ∧
            ∀ ns' rest',
              andThen (group fuel gk (t :: rest)) (commandArgs fuel) = .ok (ns', rest') →
              rest'.length ≤ (t :: rest).length ∧ countRootList ns' = 0 := by
          intro gk
          constructor
          · exact andThen_ne_panic ((ihG gk (t :: rest)).1 (by simp))
              (fun n ts' _ => (ihCA ts').1)
          · intro ns' rest' h
            obtain ⟨n, ts', ns'', hg, hca, hcons⟩ := andThen_ok h
            have hgf := (ihG gk (t :: rest)).2 n ts' hg
            have hcaf := (ihCA ts').2 ns'' rest' hca
            subst hcons
            refine ⟨?_, ?_⟩
            · have u1 := hgf.1
              have u2 := hcaf.1
              simp at u1 ⊢
              omega
            · simp [countRootList, hgf.2, hcaf.2]
        rcases t with ⟨tr, ttext, tk⟩
        cases tk with
        | beginGroup =>
          refine ⟨?_, ?_⟩
          · simpa [commandArgs] using (main .group).1
          · intro ns rest' h
            exact (main .group).2 ns rest' (by simpa [commandArgs] using h)
        | beginOptions =>
          refine ⟨?_, ?_⟩
          · simpa [commandArgs] using (main .options).1
          · intro ns rest' h
            exact (main .options).2 ns rest' (by simpa [commandArgs] using h)
        | word =>
          refine ⟨by simp [commandArgs], ?_⟩
          intro ns rest' h
          simp [commandArgs] at h
          obtain ⟨h1, h2⟩ := h
          subst h1; subst h2
          simp [countRootList]
        | command =>
          refine ⟨by simp [commandArgs], ?_⟩
          intro ns rest' h
          simp [commandArgs] at h
          obtain ⟨h1, h2⟩ := h
          subst h1; subst h2
          simp [countRootList]
        | comma =>
          refine ⟨by simp [commandArgs], ?_⟩
          intro ns rest' h
          simp [commandArgs] at h
          obtain ⟨h1, h2⟩ := h
          subst h1; subst h2
          simp [countRootList]
        | math =>
          refine ⟨by simp [commandArgs], ?_⟩
          intro ns rest' h
          simp [commandArgs] at h
          obtain ⟨h1, h2⟩ := h
          subst h1; subst h2
          simp [countRootList]
        | endGroup =>
          refine ⟨by simp [commandArgs], ?_⟩
          intro ns rest' h
          simp [commandArgs] at h
          obtain ⟨h1, h2⟩ := h
          subst h1; subst h2
          simp [countRootList]
        | endOptions =>
          refine ⟨by simp [commandArgs], ?_⟩
          intro ns rest' h
          simp [commandArgs] at h
          obtain ⟨h1, h2⟩ := h
          subst h1; subst h2
          simp [countRootList]
    have hCmd : commandSound (fuel + 1) := by
      intro ts
      cases ts with
      | nil =>
        refine ⟨fun hne => absurd rfl hne, ?_⟩
        intro n rest h; simp [command] at h
      | cons name rest =>
        cases hca : commandArgs fuel rest with
        | ok val =>
          obtain ⟨args, ts'⟩ := val
          have hca3 := (ihCA rest).2 args ts' hca
          refine ⟨fun _ => by simp [command, hca], ?_⟩
          intro n rest' h
          simp [command, hca] at h
          obtain ⟨h1, h2⟩ := h
          subst h2
          refine ⟨?_, ?_⟩
          · have := hca3.1; simp; omega
          · subst h1; simpa [countRoot] using hca3.2
        | panic =>
          refine ⟨fun _ => ?_, by intro n rest' h; simp [command, hca] at h⟩
          exact absurd hca (ihCA rest).1
        | fuelOut =>
          exact ⟨fun _ => by simp [command, hca],
            by intro n rest' h; simp [command, hca] at h⟩
    have hContent : contentSound (fuel + 1) := by
      intro scope ts
      cases ts with
      | nil =>
        refine ⟨by simp [content], ?_⟩
        intro ns rest h
        simp [content] at h
        obtain ⟨h1, h2⟩ := h
        subst h1; subst h2
        simp [countRootList]
      | cons t rest =>
        have step : ∀ res : PResult (Node × List Token),
            res ≠ PResult.panic →
            (∀ n ts', res = .ok (n, ts') →
              ts'.length ≤ rest.length ∧ countRoot n = 0) →
            andThen res (content fuel scope) ≠ PResult.panic ∧
            ∀ ns' rest', andThen res (content fuel scope) = .ok (ns', rest') →
              rest'.length ≤ (t :: rest).length ∧ countRootList ns' = 0 := by
          intro res hnp hok
          constructor
          · exact andThen_ne_panic hnp (fun n ts' _ => (ihC scope ts').1)
          · intro ns' rest' h
            obtain ⟨n, ts', ns'', hres, hc, hcons⟩ := andThen_ok h
            have hfacts := hok n ts' hres
            have hcf := (ihC scope ts').2 ns'' rest' hc
            subst hcons
            refine ⟨?_, ?_⟩
            · have := hfacts.1; have := hcf.1; simp; omega
            · simp [countRootList, hfacts.2, hcf.2]
        rcases t with ⟨tr, ttext, tk⟩
        cases tk with
        | word =>
          have h := step (text scope (⟨tr, ttext, .word⟩ :: rest))
            (text_no_panic (by simp [textTakes])) ?_
          · refine ⟨?_, ?_⟩
            · simpa [content] using h.1
            · intro ns rest' hh; exact h.2 ns rest' (by simpa [content] using hh)
          · intro n ts' hh
            exact ⟨Nat.lt_succ_iff.mp (by simpa using text_length hh), text_countRoot hh⟩
        | beginOptions =>
          have h := step (text scope (⟨tr, ttext, .beginOptions⟩ :: rest))
            (text_no_panic (by simp [textTakes])) ?_
          · refine ⟨?_, ?_⟩
            · simpa [content] using h.1
            · intro ns rest' hh; exact h.2 ns rest' (by simpa [content] using hh)
          · intro n ts' hh
            exact ⟨Nat.lt_succ_iff.mp (by simpa using text_length hh), text_countRoot hh⟩
        | endOptions =>
          by_cases hs : scope = Scope.options
          · subst hs
            refine ⟨by simp [content], ?_⟩
            intro ns rest' hh
            simp [content] at hh
            obtain ⟨h1, h2⟩ := hh
            subst h1; subst h2
            simp [countRootList]
          · have h := step (text scope (⟨tr, ttext, .endOptions⟩ :: rest))
              (text_no_panic (by simp [textTakes, hs])) ?_
            · refine ⟨?_, ?_⟩
              · simpa [content, hs] using h.1
              · intro ns rest' hh; exact h.2 ns rest' (by simpa [content, hs] using hh)
            · intro n ts' hh
              exact ⟨Nat.lt_succ_iff.mp (by simpa using text_length hh), text_countRoot hh⟩
        | command =>
          have hcmd := ihCmd (⟨tr, ttext, .command⟩ :: rest)
          have h := step (command fuel (⟨tr, ttext, .command⟩ :: rest))
            (hcmd.1 (by simp)) ?_
          · refine ⟨?_, ?_⟩
            · simpa [content] using h.1
            · intro ns rest' hh; exact h.2 ns rest' (by simpa [content] using hh)
          · intro n ts' hh
            have := hcmd.2 n ts' hh
            exact ⟨Nat.lt_succ_iff.mp (by simpa using this.1), this.2⟩
        | comma =>
          have h := step (comma (⟨tr, ttext, .comma⟩ :: rest)) (by simp [comma]) ?_
          · refine ⟨?_, ?_⟩
            · simpa [content] using h.1
            · intro ns rest' hh; exact h.2 ns rest' (by simpa [content] using hh)
          · intro n ts' hh
            simp [comma] at hh
            obtain ⟨h1, h2⟩ := hh
            subst h1; subst h2
            simp [countRoot]
        | math =>
          have h := step (math (⟨tr, ttext, .math⟩ :: rest)) (by simp [math]) ?_
          · refine ⟨?_, ?_⟩
            · simpa [content] using h.1
            · intro ns rest' hh; exact h.2 ns rest' (by simpa [content] using hh)
          · intro n ts' hh
            simp [math] at hh
            obtain ⟨h1, h2⟩ := hh
            subst h1; subst h2
            simp [countRoot]
        | beginGroup =>
          have hg := ihG .group (⟨tr, ttext, .beginGroup⟩ :: rest)
          have h := step (group fuel .group (⟨tr, ttext, .beginGroup⟩ :: rest))
            (hg.1 (by simp)) ?_
          · refine ⟨?_, ?_⟩
            · simpa [content] using h.1
            · intro ns rest' hh; exact h.2 ns rest' (by simpa [content] using hh)
          · intro n ts' hh
            have := hg.2 n ts' hh
            exact ⟨Nat.lt_succ_iff.mp (by simpa using this.1), this.2⟩
        | endGroup =>
          by_cases hs : scope = Scope.root
          · subst hs
            have hc := ihC Scope.root rest
            refine ⟨?_, ?_⟩
            · simpa [content] using hc.1
            · intro ns rest' hh
              have := hc.2 ns rest' (by simpa [content] using hh)
              exact ⟨Nat.le_succ_of_le this.1, this.2⟩
          · refine ⟨by simp [content, hs], ?_⟩
            intro ns rest' hh
            simp [content, hs] at hh
            obtain ⟨h1, h2⟩ := hh
            subst h1; subst h2
            simp [countRootList]
    exact ⟨hContent, hGroup, hCmd, hCA⟩

/-- Fuel sufficiency: with fuel exceeding the stated linear bounds in the
number of remaining tokens, no parser function runs out of fuel.  This is
the termination argument for the Rust recursion. -/
theorem parserFuelSufficient :
    ∀ fuel,
      (∀ scope ts, 4 * ts.length + 4 ≤ fuel → content fuel scope ts ≠ PResult.fuelOut) ∧
      (∀ kind ts, 4 * ts.length + 1 ≤ fuel → group fuel kind ts ≠ PResult.fuelOut) ∧
      (∀ ts, 4 * ts.length + 3 ≤ fuel → command fuel ts ≠ PResult.fuelOut) ∧
      (∀ ts, 4 * ts.length + 2 ≤ fuel → commandArgs fuel ts ≠ PResult.fuelOut) := by
  intro fuel
  induction fuel with
  | zero =>
    refine ⟨?_, ?_, ?_, ?_⟩
    · intro scope ts hb; omega
    · intro kind ts hb; omega
    · intro ts hb; omega
    · intro ts hb; omega
  | succ fuel ih =>
    obtain ⟨ihC, ihG, ihCmd, ihCA⟩ := ih
    have hGroup : ∀ kind ts, 4 * ts.length + 1 ≤ fuel + 1 →
        group (fuel + 1) kind ts ≠ PResult.fuelOut := by
      intro kind ts hb
      cases ts with
      | nil => simp [group]
      | cons left rest =>
        simp at hb
        cases hc : content fuel (groupScope kind) rest with
        | ok val =>
          obtain ⟨children, ts1⟩ := val
          cases ts1 with
          | nil => simp [group, hc]
          | cons r ts2 =>
            by_cases hrk : r.kind = rightKind kind <;> simp [group, hc, hrk]
        | panic => simp [group, hc]
        | fuelOut =>
          exact absurd hc (ihC (groupScope kind) rest (by omega))
    have hCA : ∀ ts, 4 * ts.length + 2 ≤ fuel + 1 →
        commandArgs (fuel + 1) ts ≠ PResult.fuelOut := by
      intro ts hb
      cases ts with
      | nil => simp [commandArgs]
      | cons t rest =>
        simp at hb
        have main : ∀ gk : GroupKind,
            andThen (group fuel gk (t :: rest)) (commandArgs fuel) ≠
              PResult.fuelOut := by
          intro gk
          refine andThen_ne_fuelOut (ihG gk (t :: rest) (by simp; omega)) ?_
          intro n ts' hg
          have hlen := (((parserSound fuel).2.1) gk (t :: rest)).2 n ts' hg
          refine ihCA ts' ?_
          have := hlen.1
          simp at this
          omega
        rcases t with ⟨tr, ttext, tk⟩
        cases tk with
        | beginGroup => simpa [commandArgs] using main .group
        | beginOptions => simpa [commandArgs] using main .options
        | word => simp [commandArgs]
        | command => simp [commandArgs]
        | comma => simp [commandArgs]
        | math => simp [commandArgs]
        | endGroup => simp [commandArgs]
        | endOptions => simp [commandArgs]
    have hCmd : ∀ ts, 4 * ts.length + 3 ≤ fuel + 1 →
        command (fuel + 1) ts ≠ PResult.fuelOut := by
      intro ts hb
      cases ts with
      | nil => simp [command]
      | cons name rest =>
        simp at hb
        cases hca : commandArgs fuel rest with
        | ok val => obtain ⟨args, ts'⟩ := val; simp [command, hca]
        | panic => simp [command, hca]
        | fuelOut => exact absurd hca (ihCA rest (by omega))
    have hContent : ∀ scope ts, 4 * ts.length + 4 ≤ fuel + 1 →
        content (fuel + 1) scope ts ≠ PResult.fuelOut := by
      intro scope ts hb
      cases ts with
      | nil => simp [content]
      | cons t rest =>
        simp at hb
        have textStep : andThen (text scope (t :: rest)) (content fuel scope) ≠
            PResult.fuelOut := by
          refine andThen_ne_fuelOut text_no_fuelOut ?_
          intro n ts' htx
          have := text_length htx
          simp at this
          exact ihC scope ts' (by omega)
        rcases t with ⟨tr, ttext, tk⟩
        cases tk with
        | word => simpa [content] using textStep
        | beginOptions => simpa [content] using textStep
        | command =>
          have step : andThen (command fuel (⟨tr, ttext, .command⟩ :: rest))
              (content fuel scope) ≠ PResult.fuelOut := by
            refine andThen_ne_fuelOut (ihCmd _ (by simp; omega)) ?_
            intro n ts' hcmd
            have hlen := (((parserSound fuel).2.2.1) (⟨tr, ttext, .command⟩ :: rest)).2
              n ts' hcmd
            have := hlen.1
            simp at this
            exact ihC scope ts' (by omega)
          simpa [content] using step
        | comma =>
          have step : andThen (comma (⟨tr, ttext, .comma⟩ :: rest))
              (content fuel scope) ≠ PResult.fuelOut := by
            refine andThen_ne_fuelOut (by simp [comma]) ?_
            intro n ts' hcm
            simp [comma] at hcm
            refine ihC scope ts' ?_
            rw [← hcm.2]
            omega
          simpa [content] using step
        | math =>
          have step : andThen (math (⟨tr, ttext, .math⟩ :: rest))
              (content fuel scope) ≠ PResult.fuelOut := by
            refine andThen_ne_fuelOut (by simp [math]) ?_
            intro n ts' hcm
            simp [math] at hcm
            refine ihC scope ts' ?_
            rw [← hcm.2]
            omega
          simpa [content] using step
        | beginGroup =>
          have step : andThen (group fuel .group (⟨tr, ttext, .beginGroup⟩ :: rest))
              (content fuel scope) ≠ PResult.fuelOut := by
            refine andThen_ne_fuelOut (ihG _ _ (by simp; omega)) ?_
            intro n ts' hg
            have hlen := (((parserSound fuel).2.1) .group
              (⟨tr, ttext, .beginGroup⟩ :: rest)).2 n ts' hg
            have := hlen.1
            simp at this
            exact ihC scope ts' (by omega)
          simpa [content] using step
        | endGroup =>
          by_cases hs : scope = Scope.root
          · subst hs
            have := ihC Scope.root rest (by omega)
            simpa [content] using this
          · simp [content, hs]
        | endOptions =>
          by_cases hs : scope = Scope.options
          · simp [content, hs]
          · simpa [content, hs] using textStep
    exact ⟨hContent, hGroup, hCmd, hCA⟩

theorem parse_content_ok (ts : List Token) :
    ∃ ns rest, content (parseFuel ts) Scope.root ts = .ok (ns, rest) ∧
      countRootList ns = 0 := by
  cases h : content (parseFuel ts) Scope.root ts with
  | ok val =>
    obtain ⟨ns, rest⟩ := val
    exact ⟨ns, rest, rfl, (((parserSound _).1 Scope.root ts).2 ns rest h).2⟩
  | panic => exact absurd h ((parserSound _).1 Scope.root ts).1
  | fuelOut =>
    exact absurd h ((parserFuelSufficient _).1 Scope.root ts (Nat.le_refl _))

/-- C1: for every finite input token sequence, including truncated or
malformed ones, `Parser::parse` terminates (the fuel bound baked into
`parse` is never exhausted, so the Rust recursion bottoms out) and returns
a tree containing exactly one `Root` node. -/
theorem parse_total_one_root (ts : List Token) :
    ∃ tree, parse ts = .ok tree ∧ countRoot tree = 1 := by
  obtain ⟨ns, rest, h, hroots⟩ := parse_content_ok ts
  cases ns with
  | nil =>
    refine ⟨.root ⟨⟨0, 0⟩, ⟨0, 0⟩⟩ [], ?_, ?_⟩
    · simp [parse, h]
    · simp [countRoot, countRootList]
  | cons c cs =>
    refine ⟨.root ⟨c.rangeOf.start, ((cs.getLastD c).rangeOf).endPos⟩ (c :: cs), ?_, ?_⟩
    · simp [parse, h]
    · simp [countRoot]
      simpa [countRootList] using hroots

/-- C10: for every finite input token sequence, `Parser::parse` never
panics: every `tokens.next().unwrap()` in `group`, `command`, `comma`,
`math` and `text` is guarded by a successful peek of an accepted token
kind, and the `words` vector indexed in `Parser::text` is never empty, so
the embedded panic outcome is unreachable. -/
theorem parse_never_panics (ts : List Token) : parse ts ≠ PResult.panic := by
  obtain ⟨ns, rest, h, -⟩ := parse_content_ok ts
  cases ns with
  | nil => simp [parse, h]
  | cons c cs => simp [parse, h]

/-- C8: when the matching right delimiter of a group is absent at the
point its content stops (in particular for truncated input), the group is
still produced without failure: its right delimiter is recorded as absent
(`none`) and its end range falls back to the last child's end, or to the
opening delimiter's end when the group has no children.  The leftover
tokens are handed back so parsing continues. -/
theorem group_missing_right_delimiter (fuel : Nat) (kind : GroupKind)
    (left : Token) (rest : List Token) (children : List Node) (ts1 : List Token)
    (hc : content fuel (groupScope kind) rest = .ok (children, ts1))
    (hnr : ∀ r ∈ ts1.head?, r.kind ≠ rightKind kind) :
    group (fuel + 1) kind (left :: rest) =
      .ok (.group ⟨left.start, ((children.getLast?).map Node.rangeOf).elim
          left.endPos Range.endPos⟩ left kind none children, ts1) := by
  cases ts1 with
  | nil => simp [group, hc]
  | cons r ts2 =>
    have hrk : ¬ r.kind = rightKind kind := hnr r (by simp)
    simp [group, hc, hrk]

def wtokC8 : Token := ⟨⟨⟨0, 1⟩, ⟨0, 2⟩⟩, "a", TokenKind.word⟩

def ltokC8 : Token := ⟨⟨⟨0, 0⟩, ⟨0, 1⟩⟩, "\x7b", TokenKind.beginGroup⟩

def wnodeC8 : Node := .text ⟨⟨0, 1⟩, ⟨0, 2⟩⟩ [wtokC8]

theorem group_missing_right_delimiter_witness :
    content 2 (groupScope .group) [wtokC8] = .ok ([wnodeC8], []) ∧
    group (2 + 1) .group [ltokC8, wtokC8] =
      .ok (.group ⟨⟨0, 0⟩, ⟨0, 2⟩⟩ ltokC8 .group none [wnodeC8], []) :=
  ⟨rfl, group_missing_right_delimiter 2 .group ltokC8 [wtokC8] [wnodeC8] []
    rfl (by simp)⟩

/-- C9: an `EndOptions` token seen while the current scope is not
`Options` is not treated as a closing delimiter: `content` hands it to
`Parser::text`, whose word-collection predicate accepts it, so it becomes
the first word of a new `Text` node (or is absorbed into an ongoing word
run); in `Options` scope the same token terminates the scope's content
run, leaving the token for the enclosing `group` call. -/
theorem endOptions_scope_behavior (fuel : Nat) (scope : Scope) (t : Token)
    (rest : List Token) (hk : t.kind = TokenKind.endOptions) :
    (scope ≠ Scope.options →
      textTakes scope t = true ∧
      content (fuel + 1) scope (t :: rest) =
        andThen (text scope (t :: rest)) (content fuel scope) ∧
      ∃ ws r, text scope (t :: rest) =
        .ok (.text ⟨t.start, (ws.getLastD t).endPos⟩ (t :: ws), r)) ∧
    (scope = Scope.options →
      content (fuel + 1) scope (t :: rest) = .ok ([], t :: rest)) := by
  constructor
  · intro hs
    have htt : textTakes scope t = true := by simp [textTakes, hk, hs]
    refine ⟨htt, ?_, ?_⟩
    · rcases t with ⟨tr, ttext, tk⟩
      cases tk <;> simp_all [content]
    · unfold text takeWords
      rw [if_pos htt]
      cases htw : takeWords scope rest with
      | mk ws r => exact ⟨ws, r, rfl⟩
  · intro hs
    subst hs
    rcases t with ⟨tr, ttext, tk⟩
    cases tk <;> simp_all [content]

def etokC9 : Token := ⟨⟨⟨0, 0⟩, ⟨0, 1⟩⟩, "]", TokenKind.endOptions⟩

theorem endOptions_scope_behavior_witness :
    etokC9.kind = TokenKind.endOptions ∧
    ((Scope.root ≠ Scope.options →
      textTakes Scope.root etokC9 = true ∧
      content (1 + 1) Scope.root [etokC9] =
        andThen (text Scope.root [etokC9]) (content 1 Scope.root) ∧
      ∃ ws r, text Scope.root [etokC9] =
        .ok (.text ⟨etokC9.start, (ws.getLastD etokC9).endPos⟩ (etokC9 :: ws), r)) ∧
    (Scope.root = Scope.options →
      content (1 + 1) Scope.root [etokC9] = .ok ([], [etokC9]))) :=
  ⟨rfl, endOptions_scope_behavior 1 Scope.root etokC9 [] rfl⟩

/-- The token stream contract of the tokenizer (§4.1): token ranges are
well-formed and consecutive tokens do not overlap, starting no earlier
than `p`.  This is implied by the spec's statement that the concatenated
token ranges exactly cover the input. -/
def sortedFrom (p : Position) : List Token → Prop
  | [] => True
  | t :: rest => p ≤ t.start ∧ t.start ≤ t.endPos ∧ sortedFrom t.endPos rest

instance instDecSortedFrom : (p : Position) → (ts : List Token) →
    Decidable (sortedFrom p ts)
  | _, [] => .isTrue trivial
  | p, t :: rest =>
    have : Decidable (sortedFrom t.endPos rest) := instDecSortedFrom _ rest
    inferInstanceAs (Decidable (_ ∧ _ ∧ _))

theorem sortedFrom_mono {p' p : Position} {ts : List Token}
    (hle : p' ≤ p) (h : sortedFrom p ts) : sortedFrom p' ts := by
  cases ts with
  | nil => trivial
  | cons t rest => exact ⟨Position.le_trans hle h.1, h.2.1, h.2.2⟩

theorem sortedFrom_head {p : Position} {ts : List Token}
    (h : sortedFrom p ts) : ∀ u ∈ ts.head?, p ≤ u.start := by
  cases ts with
  | nil => simp
  | cons t rest => simpa using h.1

theorem sortedFrom_of_head {p q : Position} {ts : List Token}
    (hq : ∀ u ∈ ts.head?, q ≤ u.start) (h : sortedFrom p ts) :
    sortedFrom q ts := by
  cases ts with
  | nil => trivial
  | cons t rest => exact ⟨hq t (by simp), h.2.1, h.2.2⟩

/-- End position of the last of the tokens `xs`, or `p` if there is none. -/
def lastEnd (p : Position) (xs : List Token) : Position :=
  (xs.getLast?).elim p Token.endPos

theorem lastEnd_cons (p : Position) (x : Token) (xs : List Token) :
    lastEnd p (x :: xs) = lastEnd x.endPos xs := by
  cases xs with
  | nil => simp [lastEnd]
  | cons y ys =>
    cases hg : (y :: ys).getLast? with
    | none => simp [List.getLast?_eq_none_iff] at hg
    | some z => simp [lastEnd, List.getLast?_cons_cons, hg]

theorem sortedFrom_append :
    ∀ {xs : List Token} {p : Position} {ys : List Token},
      sortedFrom p (xs ++ ys) →
      sortedFrom p xs ∧ sortedFrom (lastEnd p xs) ys ∧ p ≤ lastEnd p xs := by
  intro xs
  induction xs with
  | nil =>
    intro p ys h
    exact ⟨trivial, h, Position.le_refl p⟩
  | cons x xs ih =>
    intro p ys h
    obtain ⟨h1, h2, h3⟩ := h
    obtain ⟨s1, s2, s3⟩ := ih h3
    refine ⟨⟨h1, h2, s1⟩, by rw [lastEnd_cons]; exact s2, ?_⟩
    rw [lastEnd_cons]
    exact Position.le_trans h1 (Position.le_trans h2 s3)

/-- Well-formedness of a parsed node: its range is non-degenerate and
contains (endpoint-wise) the range of every child, recursively. -/
inductive WfNode : Node → Prop where
  | mk (n : Node) :
      n.rangeOf.start ≤ n.rangeOf.endPos →
      (∀ c ∈ n.childrenOf, WfNode c) →
      (∀ c ∈ n.childrenOf, n.rangeOf.start ≤ c.rangeOf.start ∧
        c.rangeOf.endPos ≤ n.rangeOf.endPos) →
      WfNode n

theorem WfNode.start_le_end {n : Node} (h : WfNode n) :
    n.rangeOf.start ≤ n.rangeOf.endPos := by
  cases h with
  | mk _ h1 _ _ => exact h1

theorem WfNode.child {n c : Node} (h : WfNode n) (hc : c ∈ n.childrenOf) :
    WfNode c ∧ n.rangeOf.start ≤ c.rangeOf.start ∧
      c.rangeOf.endPos ≤ n.rangeOf.endPos := by
  cases h with
  | mk _ _ h2 h3 => exact ⟨h2 c hc, h3 c hc⟩

/-- Leaf nodes with a well-formed range are well-formed. -/
theorem wfNode_leaf {n : Node} (h1 : n.rangeOf.start ≤ n.rangeOf.endPos)
    (h2 : n.childrenOf = []) : WfNode n :=
  .mk n h1 (by rw [h2]; simp) (by rw [h2]; simp)

/-- The invariant carried along a node list produced by a content or
argument loop: nodes are ordered, well-formed, bounded below by `p`, and
each ends no later than the start of the next unread token. -/
def nodesOk (p : Position) : List Node → List Token → Prop
  | [], _ => True
  | n :: ns, rest =>
      p ≤ n.rangeOf.start ∧ WfNode n ∧
      (∀ u ∈ rest.head?, n.rangeOf.endPos ≤ u.start) ∧
      nodesOk n.rangeOf.endPos ns rest

theorem nodesOk_mono {p' p : Position} {ns : List Node} {rest : List Token}
    (hle : p' ≤ p) (h : nodesOk p ns rest) : nodesOk p' ns rest := by
  cases ns with
  | nil => trivial
  | cons n ns => exact ⟨Position.le_trans hle h.1, h.2.1, h.2.2.1, h.2.2.2⟩

theorem nodesOk_all {ns : List Node} :
    ∀ {p : Position} {rest : List Token}, nodesOk p ns rest →
      ∀ n ∈ ns, p ≤ n.rangeOf.start ∧ WfNode n ∧
        (∀ u ∈ rest.head?, n.rangeOf.endPos ≤ u.start) := by
  induction ns with
  | nil => intro p rest _ n hn; simp at hn
  | cons m ms ih =>
    intro p rest h n hn
    obtain ⟨h1, h2, h3, h4⟩ := h
    rcases List.mem_cons.mp hn with hn | hn
    · subst hn; exact ⟨h1, h2, h3⟩
    · obtain ⟨g1, g2, g3⟩ := ih h4 n hn
      exact ⟨Position.le_trans h1 (Position.le_trans h2.start_le_end g1), g2, g3⟩

theorem nodesOk_last {cs : List Node} :
    ∀ {c : Node} {p : Position} {rest : List Token},
      nodesOk p (c :: cs) rest →
      ∀ n ∈ c :: cs, n.rangeOf.endPos ≤ ((cs.getLastD c).rangeOf).endPos := by
  induction cs with
  | nil =>
    intro c p rest _ n hn
    simp at hn
    subst hn
    exact Position.le_refl _
  | cons d ds ih =>
    intro c p rest h n hn
    obtain ⟨h1, h2, h3, h4⟩ := h
    rw [List.getLastD_cons]
    rcases List.mem_cons.mp hn with hn | hn
    · subst hn
      have hd := nodesOk_all h4 d (by simp)
      have hlast := ih h4 d (by simp)
      exact Position.le_trans hd.1
        (Position.le_trans hd.2.1.start_le_end hlast)
    · exact ih h4 n hn

theorem lastEnd_getLastD :
    ∀ (ws : List Token) (w : Token), lastEnd w.endPos ws = (ws.getLastD w).endPos := by
  intro ws
  induction ws with
  | nil => intro w; simp [lastEnd]
  | cons x xs ih =>
    intro w
    rw [lastEnd_cons, ih x, List.getLastD_cons]

theorem sortedFrom_le_lastEnd :
    ∀ {xs : List Token} {q : Position}, sortedFrom q xs → q ≤ lastEnd q xs := by
  intro xs
  induction xs with
  | nil => intro q _; exact Position.le_refl q
  | cons x xs ih =>
    intro q h
    rw [lastEnd_cons]
    exact Position.le_trans h.1 (Position.le_trans h.2.1 (ih h.2.2))

theorem getLastD_mem {α : Type} : ∀ (cs : List α) (c : α), cs.getLastD c ∈ c :: cs := by
  intro cs
  induction cs with
  | nil => intro c; simp
  | cons x xs ih =>
    intro c
    rw [List.getLastD_cons]
    exact List.mem_cons_of_mem c (ih x)

/-- The end-range fallback expression of `group`/`command` on a nonempty
child list picks the last child's end. -/
theorem nodeListLastEnd (c : Node) (cs : List Node) (q : Position) :
    (((c :: cs).getLast?).map Node.rangeOf).elim q Range.endPos =
      ((cs.getLastD c).rangeOf).endPos := by
  simp [List.getLast?_cons, List.getLastD_eq_getLast?]

theorem text_inv {scope : Scope} {p : Position} {ts ts' : List Token} {n : Node}
    (hs : sortedFrom p ts) (h : text scope ts = .ok (n, ts')) :
    p ≤ n.rangeOf.start ∧ WfNode n ∧ sortedFrom n.rangeOf.endPos ts' := by
  obtain ⟨w, ws, htw, hn, happ⟩ := text_ok h
  subst hn
  rw [← happ] at hs
  obtain ⟨s1, s2, s3⟩ := sortedFrom_append hs
  have hle : lastEnd p (w :: ws) = (ws.getLastD w).endPos := by
    rw [lastEnd_cons, lastEnd_getLastD]
  refine ⟨s1.1, ?_, ?_⟩
  · refine wfNode_leaf ?_ rfl
    have := sortedFrom_le_lastEnd s1.2.2
    rw [lastEnd_getLastD] at this
    exact Position.le_trans s1.2.1 this
  · rw [hle] at s2
    exact s2

/-- Range invariant for `content`: on a token stream satisfying the
tokenizer contract, the produced nodes are well-formed, ordered, bounded
below by `p`, and the unread rest still satisfies the contract. -/
def contentRInv (fuel : Nat) : Prop :=
  ∀ scope p ts ns rest, sortedFrom p ts → content fuel scope ts = .ok (ns, rest) →
    nodesOk p ns rest ∧ sortedFrom p rest

/-- Range invariant for `group`. -/
def groupRInv (fuel : Nat) : Prop :=
  ∀ kind p ts n rest', sortedFrom p ts → group fuel kind ts = .ok (n, rest') →
    p ≤ n.rangeOf.start ∧ WfNode n ∧ sortedFrom n.rangeOf.endPos rest'

/-- Range invariant for `command`. -/
def commandRInv (fuel : Nat) : Prop :=
  ∀ p ts n rest', sortedFrom p ts → command fuel ts = .ok (n, rest') →
    p ≤ n.rangeOf.start ∧ WfNode n ∧ sortedFrom n.rangeOf.endPos rest'

/-- Range invariant for the argument loop of `command`. -/
def commandArgsRInv (fuel : Nat) : Prop :=
  ∀ p ts ns rest, sortedFrom p ts → commandArgs fuel ts = .ok (ns, rest) →
    nodesOk p ns rest ∧ sortedFrom p rest

theorem andThen_rinv {res : PResult (Node × List Token)}
    {k : List Token → PResult (List Node × List Token)}
    {p : Position} {ns : List Node} {rest : List Token}
    (h : andThen res k = .ok (ns, rest))
    (hres : ∀ n ts'', res = .ok (n, ts'') →
      p ≤ n.rangeOf.start ∧ WfNode n ∧ sortedFrom n.rangeOf.endPos ts'')
    (hk : ∀ q ts'' ns' rest', sortedFrom q ts'' → k ts'' = .ok (ns', rest') →
      nodesOk q ns' rest' ∧ sortedFrom q rest') :
    nodesOk p ns rest ∧ sortedFrom p rest := by
  obtain ⟨n, ts'', ns', he, hke, hcons⟩ := andThen_ok h
  obtain ⟨f1, f2, f3⟩ := hres n ts'' he
  obtain ⟨g1, g2⟩ := hk n.rangeOf.endPos ts'' ns' rest f3 hke
  subst hcons
  exact ⟨⟨f1, f2, sortedFrom_head g2, g1⟩,
    sortedFrom_mono (Position.le_trans f1 f2.start_le_end) g2⟩

theorem parserRangeInv :
    ∀ fuel, contentRInv fuel ∧ groupRInv fuel ∧ commandRInv fuel ∧
      commandArgsRInv fuel := by
  intro fuel
  induction fuel with
  | zero =>
    refine ⟨?_, ?_, ?_, ?_⟩
    · intro scope p ts ns rest _ h; simp [content] at h
    · intro kind p ts n rest' _ h; simp [group] at h
    · intro p ts n rest' _ h; simp [command] at h
    · intro p ts ns rest _ h; simp [commandArgs] at h
  | succ fuel ih =>
    obtain ⟨ihC, ihG, ihCmd, ihCA⟩ := ih
    have buildWf : ∀ (mk : List Node → Node) (children : List Node)
        (start finish : Position),
        (∀ cs, (mk cs).rangeOf.start = start) →
        (∀ cs, (mk cs).childrenOf = cs) →
        (mk children).rangeOf.endPos = finish →
        start ≤ finish →
        (∀ c ∈ children, WfNode c) →
        (∀ c ∈ children, start ≤ c.rangeOf.start) →
        (∀ c ∈ children, c.rangeOf.endPos ≤ finish) →
        WfNode (mk children) := by
      intro mk children start finish hstart hch hend hsf hwf hlo hhi
      refine WfNode.mk _ ?_ ?_ ?_
      · rw [hstart, hend]; exact hsf
      · rw [hch]; exact hwf
      · rw [hch]
        intro c hc
        rw [hstart, hend]
        exact ⟨hlo c hc, hhi c hc⟩
    have hG : groupRInv (fuel + 1) := by
      intro kind p ts n rest' hs h
      cases ts with
      | nil => simp [group] at h
      | cons left rest =>
        obtain ⟨hs1, hs2, hs3⟩ := hs
        cases hc : content fuel (groupScope kind) rest with
        | ok val =>
          obtain ⟨children, ts1⟩ := val
          obtain ⟨A, B⟩ := ihC (groupScope kind) left.endPos rest children ts1 hs3 hc
          have noRight : ∀ rt : List Token, ts1 = rt →
              nodesOk left.endPos children rt →
              sortedFrom left.endPos rt →
              p ≤ left.start ∧
              WfNode (Node.group ⟨left.start,
                ((children.getLast?).map Node.rangeOf).elim left.endPos
                  Range.endPos⟩ left kind none children) ∧
              sortedFrom (((children.getLast?).map Node.rangeOf).elim left.endPos
                Range.endPos) rt := by
            intro rt hrt A' B'
            cases children with
            | nil =>
              refine ⟨hs1, ?_, ?_⟩
              · exact wfNode_leaf hs2 rfl
              · exact B'
            | cons c cs =>
              have hend := nodeListLastEnd c cs left.endPos
              have hcall := nodesOk_all A'
              have hclast := nodesOk_last A'
              have hc1 := hcall c (by simp)
              have hlastf := hcall _ (getLastD_mem cs c)
              refine ⟨hs1, ?_, ?_⟩
              · refine buildWf (fun cs' => Node.group ⟨left.start,
                  (((c :: cs).getLast?).map Node.rangeOf).elim left.endPos
                    Range.endPos⟩ left kind none cs') (c :: cs) left.start
                  (((cs.getLastD c).rangeOf).endPos) (fun _ => rfl) (fun _ => rfl)
                  (by simpa using hend) ?_ ?_ ?_ ?_
                · exact Position.le_trans hs2 (Position.le_trans hc1.1
                    (Position.le_trans hc1.2.1.start_le_end
                      (hclast c (by simp))))
                · intro x hx; exact (hcall x hx).2.1
                · intro x hx
                  exact Position.le_trans hs2 (hcall x hx).1
                · intro x hx; exact hclast x hx
              · have hhead := hlastf.2.2
                rw [show (((c :: cs).getLast?).map Node.rangeOf).elim left.endPos
                    Range.endPos = ((cs.getLastD c).rangeOf).endPos from hend]
                exact sortedFrom_of_head hhead B'
          cases ts1 with
          | nil =>
            simp [group, hc] at h
            obtain ⟨h1, h2⟩ := h
            subst h2
            have := noRight [] rfl A B
            rw [← h1]
            exact this
          | cons r ts2 =>
            by_cases hrk : r.kind = rightKind kind
            · simp [group, hc, hrk] at h
              obtain ⟨h1, h2⟩ := h
              subst h2
              obtain ⟨B1, B2, B3⟩ := B
              rw [← h1]
              refine ⟨hs1, ?_, B3⟩
              have hcall := nodesOk_all A
              refine buildWf (fun cs' => Node.group ⟨left.start, r.endPos⟩ left kind
                (some r) cs') children left.start r.endPos (fun _ => rfl)
                (fun _ => rfl) rfl ?_ ?_ ?_ ?_
              · exact Position.le_trans hs2 (Position.le_trans B1 B2)
              · intro x hx; exact (hcall x hx).2.1
              · intro x hx; exact Position.le_trans hs2 (hcall x hx).1
              · intro x hx
                exact Position.le_trans ((hcall x hx).2.2 r (by simp)) B2
            · simp [group, hc, hrk] at h
              obtain ⟨h1, h2⟩ := h
              subst h2
              have := noRight (r :: ts2) rfl A B
              rw [← h1]
              exact this
        | panic => simp [group, hc] at h
        | fuelOut => simp [group, hc] at h
    have hCmd : commandRInv (fuel + 1) := by
      intro p ts n rest' hs h
      cases ts with
      | nil => simp [command] at h
      | cons name rest =>
        obtain ⟨hs1, hs2, hs3⟩ := hs
        cases hca : commandArgs fuel rest with
        | ok val =>
          obtain ⟨args, ts2⟩ := val
          obtain ⟨A, B⟩ := ihCA name.endPos rest args ts2 hs3 hca
          simp [command, hca] at h
          obtain ⟨h1, h2⟩ := h
          subst h2
          rw [← h1]
          cases args with
          | nil =>
            exact ⟨hs1, wfNode_leaf hs2 rfl, B⟩
          | cons a as =>
            have hend := nodeListLastEnd a as name.endPos
            have hcall := nodesOk_all A
            have hclast := nodesOk_last A
            have ha1 := hcall a (by simp)
            have hlastf := hcall _ (getLastD_mem as a)
            refine ⟨hs1, ?_, ?_⟩
            · refine buildWf (fun cs' => Node.command ⟨name.start,
                (((a :: as).getLast?).map Node.rangeOf).elim name.endPos
                  Range.endPos⟩ name cs') (a :: as) name.start
                (((as.getLastD a).rangeOf).endPos) (fun _ => rfl) (fun _ => rfl)
                (by simpa using hend) ?_ ?_ ?_ ?_
              · exact Position.le_trans hs2 (Position.le_trans ha1.1
                  (Position.le_trans ha1.2.1.start_le_end (hclast a (by simp))))
              · intro x hx; exact (hcall x hx).2.1
              · intro x hx; exact Position.le_trans hs2 (hcall x hx).1
              · intro x hx; exact hclast x hx
            · have hhead := hlastf.2.2
              rw [show (((a :: as).getLast?).map Node.rangeOf).elim name.endPos
                  Range.endPos = ((as.getLastD a).rangeOf).endPos from hend]
              exact sortedFrom_of_head hhead B
        | panic => simp [command, hca] at h
        | fuelOut => simp [command, hca] at h
    have hCA : commandArgsRInv (fuel + 1) := by
      intro p ts ns rest hs h
      cases ts with
      | nil =>
        simp [commandArgs] at h
        obtain ⟨h1, h2⟩ := h
        subst h1; subst h2
        exact ⟨trivial, trivial⟩
      | cons t rest0 =>
        have main : ∀ gk : GroupKind,
            andThen (group fuel gk (t :: rest0)) (commandArgs fuel) = .ok (ns, rest) →
            nodesOk p ns rest ∧ sortedFrom p rest := by
          intro gk hh
          refine andThen_rinv hh ?_ ?_
          · intro n ts'' he
            exact ihG gk p (t :: rest0) n ts'' hs he
          · intro q ts'' ns' rest'' hq he
            exact ihCA q ts'' ns' rest'' hq he
        rcases t with ⟨tr, ttext, tk⟩
        cases tk with
        | beginGroup => exact main .group (by simpa [commandArgs] using h)
        | beginOptions => exact main .options (by simpa [commandArgs] using h)
        | word =>
          simp [commandArgs] at h
          obtain ⟨h1, h2⟩ := h
          subst h1; subst h2
          exact ⟨trivial, hs⟩
        | command =>
          simp [commandArgs] at h
          obtain ⟨h1, h2⟩ := h
          subst h1; subst h2
          exact ⟨trivial, hs⟩
        | comma =>
          simp [commandArgs] at h
          obtain ⟨h1, h2⟩ := h
          subst h1; subst h2
          exact ⟨trivial, hs⟩
        | math =>
          simp [commandArgs] at h
          obtain ⟨h1, h2⟩ := h
          subst h1; subst h2
          exact ⟨trivial, hs⟩
        | endGroup =>
          simp [commandArgs] at h
          obtain ⟨h1, h2⟩ := h
          subst h1; subst h2
          exact ⟨trivial, hs⟩
        | endOptions =>
          simp [commandArgs] at h
          obtain ⟨h1, h2⟩ := h
          subst h1; subst h2
          exact ⟨trivial, hs⟩
    have hC : contentRInv (fuel + 1) := by
      intro scope p ts ns rest hs h
      cases ts with
      | nil =>
        simp [content] at h
        obtain ⟨h1, h2⟩ := h
        subst h1; subst h2
        exact ⟨trivial, trivial⟩
      | cons t rest0 =>
        have cont : ∀ q ts'' ns' rest'', sortedFrom q ts'' →
            content fuel scope ts'' = .ok (ns', rest'') →
            nodesOk q ns' rest'' ∧ sortedFrom q rest'' := by
          intro q ts'' ns' rest'' hq he
          exact ihC scope q ts'' ns' rest'' hq he
        rcases t with ⟨tr, ttext, tk⟩
        cases tk with
        | word =>
          refine andThen_rinv (by simpa [content] using h) ?_ cont
          intro n ts'' he
          exact text_inv hs he
        | beginOptions =>
          refine andThen_rinv (by simpa [content] using h) ?_ cont
          intro n ts'' he
          exact text_inv hs he
        | command =>
          refine andThen_rinv (by simpa [content] using h) ?_ cont
          intro n ts'' he
          exact ihCmd p (⟨tr, ttext, .command⟩ :: rest0) n ts'' hs he
        | beginGroup =>
          refine andThen_rinv (by simpa [content] using h) ?_ cont
          intro n ts'' he
          exact ihG .group p (⟨tr, ttext, .beginGroup⟩ :: rest0) n ts'' hs he
        | comma =>
          refine andThen_rinv (by simpa [content] using h) ?_ cont
          intro n ts'' he
          simp [comma] at he
          obtain ⟨he1, he2⟩ := he
          subst he2
          rw [← he1]
          exact ⟨hs.1, wfNode_leaf hs.2.1 rfl, hs.2.2⟩
        | math =>
          refine andThen_rinv (by simpa [content] using h) ?_ cont
          intro n ts'' he
          simp [math] at he
          obtain ⟨he1, he2⟩ := he
          subst he2
          rw [← he1]
          exact ⟨hs.1, wfNode_leaf hs.2.1 rfl, hs.2.2⟩
        | endGroup =>
          by_cases hsc : scope = Scope.root
          · subst hsc
            have he : content fuel Scope.root rest0 = .ok (ns, rest) := by
              simpa [content] using h
            have hq : sortedFrom p rest0 :=
              sortedFrom_mono (Position.le_trans hs.1 hs.2.1) hs.2.2
            exact cont p rest0 ns rest hq he
          · simp [content, hsc] at h
            obtain ⟨h1, h2⟩ := h
            subst h1; subst h2
            exact ⟨trivial, hs⟩
        | endOptions =>
          by_cases hsc : scope = Scope.options
          · subst hsc
            simp [content] at h
            obtain ⟨h1, h2⟩ := h
            subst h1; subst h2
            exact ⟨trivial, hs⟩
          · refine andThen_rinv (by simpa [content, hsc] using h) ?_ cont
            intro n ts'' he
            exact text_inv hs he
    exact ⟨hC, hG, hCmd, hCA⟩

theorem parse_wf (ts : List Token) (tree : Node)
    (hs : sortedFrom ⟨0, 0⟩ ts) (hp : parse ts = .ok tree) : WfNode tree := by
  obtain ⟨ns, rest, hc, -⟩ := parse_content_ok ts
  obtain ⟨A, B⟩ := (parserRangeInv (parseFuel ts)).1 Scope.root ⟨0, 0⟩ ts ns rest hs hc
  cases ns with
  | nil =>
    simp only [parse, hc, PResult.ok.injEq] at hp
    rw [← hp]
    exact wfNode_leaf (Position.le_refl _) rfl
  | cons c cs =>
    simp only [parse, hc, PResult.ok.injEq] at hp
    rw [← hp]
    have hcall := nodesOk_all A
    have hclast := nodesOk_last A
    have hc1 := hcall c (by simp)
    refine WfNode.mk _ ?_ ?_ ?_
    · exact Position.le_trans hc1.2.1.start_le_end (hclast c (by simp))
    · intro x hx; exact (hcall x hx).2.1
    · intro x hx
      refine ⟨?_, hclast x hx⟩
      rcases List.mem_cons.mp hx with hx | hx
      · subst hx; exact Position.le_refl _
      · have := nodesOk_all A.2.2.2 x hx
        exact Position.le_trans hc1.2.1.start_le_end this.1

/-- `x` is a node of the tree `t` (reflexive-transitive closure of the
parent/child edges created by `Parser::connect`). -/
inductive Occurs : Node → Node → Prop where
  | refl (t : Node) : Occurs t t
  | child {x c t : Node} : c ∈ t.childrenOf → Occurs x c → Occurs x t

theorem WfNode.occurs {t x : Node} (hw : WfNode t) (ho : Occurs x t) :
    WfNode x := by
  induction ho with
  | refl => exact hw
  | child hc _ ih => exact ih (hw.child hc).1

/-- C2: for every tree parsed from a token stream satisfying the
tokenizer's ordering contract (§4.1), every non-root node's range is
contained in its parent node's range, under the half-open
`start ≤ p < end` containment of §6.  (Stated for every parent/child
edge of the tree, which covers every non-root node.) -/
theorem parse_parent_child_containment (ts : List Token) (tree : Node)
    (hs : sortedFrom ⟨0, 0⟩ ts) (hp : parse ts = .ok tree) :
    ∀ x y, Occurs x tree → y ∈ x.childrenOf → rangeSub y.rangeOf x.rangeOf := by
  intro x y hx hy
  have hwx := (parse_wf ts tree hs hp).occurs hx
  obtain ⟨-, h1, h2⟩ := hwx.child hy
  exact rangeSub_of_endpoints h1 h2

def ltokW : Token := ⟨⟨⟨0, 0⟩, ⟨0, 1⟩⟩, "\x7b", TokenKind.beginGroup⟩

def wtokW : Token := ⟨⟨⟨0, 1⟩, ⟨0, 2⟩⟩, "a", TokenKind.word⟩

def rtokW : Token := ⟨⟨⟨0, 2⟩, ⟨0, 3⟩⟩, "\x7d", TokenKind.endGroup⟩

def tsW : List Token := [ltokW, wtokW, rtokW]

def treeW : Node :=
  .root ⟨⟨0, 0⟩, ⟨0, 3⟩⟩
    [.group ⟨⟨0, 0⟩, ⟨0, 3⟩⟩ ltokW .group (some rtokW)
      [.text ⟨⟨0, 1⟩, ⟨0, 2⟩⟩ [wtokW]]]

theorem parse_parent_child_containment_witness :
    sortedFrom ⟨0, 0⟩ tsW ∧ parse tsW = .ok treeW ∧
    (∀ x y, Occurs x treeW → y ∈ x.childrenOf → rangeSub y.rangeOf x.rangeOf) :=
  ⟨by decide, rfl, parse_parent_child_containment tsW treeW (by decide) rfl⟩

def parsedNode (res : PResult Node) : Node :=
  match res with
  | .ok n => n
  | _ => .root ⟨⟨0, 0⟩, ⟨0, 0⟩⟩ []

def resultIsOk (res : PResult Node) : Bool :=
  match res with
  | .ok _ => true
  | _ => false

def wtokAC3 : Token := ⟨⟨⟨0, 0⟩, ⟨0, 1⟩⟩, "a", TokenKind.word⟩

def etokC3 : Token := ⟨⟨⟨0, 1⟩, ⟨0, 2⟩⟩, "\x7d", TokenKind.endGroup⟩

def wtokBC3 : Token := ⟨⟨⟨0, 2⟩, ⟨0, 3⟩⟩, "b", TokenKind.word⟩

/-- Input `a}b`: the stray `EndGroup` token in `Root` scope is consumed
and discarded, leaving a gap between the two text children. -/
def tsC3 : List Token := [wtokAC3, etokC3, wtokBC3]

/-- Counterexample to C3 as stated: on input `a}b` the root's range is
`(0,0)-(0,3)`, but the position `(0,1)` lies in the root's range and in no
child's range, so the root's range is not the union of its children's
ranges (the stray `}` leaves a gap that the root range covers). -/
theorem root_range_not_union_of_children :
    resultIsOk (parse tsC3) = true ∧
    posIn ⟨0, 1⟩ ((parsedNode (parse tsC3)).rangeOf) ∧
    ∀ c ∈ (parsedNode (parse tsC3)).childrenOf, ¬ posIn ⟨0, 1⟩ c.rangeOf := by
  refine ⟨rfl, by decide, by decide⟩

/-- C3 (amended): for every token stream satisfying the tokenizer's
ordering contract, the root's range is the smallest interval covering its
children's ranges — it runs from the first child's range start to the last
child's range end and contains every child's range — and it equals the
empty range `(0,0)-(0,0)` when the root has no children. -/
theorem root_range_hull (ts : List Token) (tree : Node)
    (hs : sortedFrom ⟨0, 0⟩ ts) (hp : parse ts = .ok tree) :
    (tree.childrenOf = [] → tree.rangeOf = ⟨⟨0, 0⟩, ⟨0, 0⟩⟩) ∧
    ∀ c cs, tree.childrenOf = c :: cs →
      tree.rangeOf.start = c.rangeOf.start ∧
      tree.rangeOf.endPos = ((cs.getLastD c).rangeOf).endPos ∧
      ∀ x ∈ c :: cs, rangeSub x.rangeOf tree.rangeOf := by
  obtain ⟨ns, rest, hc, -⟩ := parse_content_ok ts
  obtain ⟨A, B⟩ := (parserRangeInv (parseFuel ts)).1 Scope.root ⟨0, 0⟩ ts ns rest hs hc
  cases ns with
  | nil =>
    simp only [parse, hc, PResult.ok.injEq] at hp
    rw [← hp]
    refine ⟨fun _ => rfl, ?_⟩
    intro c cs hcc
    simp [Node.childrenOf] at hcc
  | cons c0 cs0 =>
    simp only [parse, hc, PResult.ok.injEq] at hp
    rw [← hp]
    refine ⟨fun hemp => by simp [Node.childrenOf] at hemp, ?_⟩
    intro c cs hcc
    simp only [Node.childrenOf, List.cons.injEq] at hcc
    obtain ⟨hcc1, hcc2⟩ := hcc
    subst hcc1
    subst hcc2
    have hcall := nodesOk_all A
    have hclast := nodesOk_last A
    have hc1 := hcall c0 (by simp)
    refine ⟨rfl, rfl, ?_⟩
    intro x hx
    refine rangeSub_of_endpoints ?_ (hclast x hx)
    rcases List.mem_cons.mp hx with hx | hx
    · subst hx; exact Position.le_refl _
    · have := nodesOk_all A.2.2.2 x hx
      exact Position.le_trans hc1.2.1.start_le_end this.1

theorem root_range_hull_witness :
    sortedFrom ⟨0, 0⟩ tsW ∧ parse tsW = .ok treeW ∧
    ((treeW.childrenOf = [] → treeW.rangeOf = ⟨⟨0, 0⟩, ⟨0, 0⟩⟩) ∧
    ∀ c cs, treeW.childrenOf = c :: cs →
      treeW.rangeOf.start = c.rangeOf.start ∧
      treeW.rangeOf.endPos = ((cs.getLastD c).rangeOf).endPos ∧
      ∀ x ∈ c :: cs, rangeSub x.rangeOf treeW.rangeOf) :=
  ⟨by decide, rfl, root_range_hull tsW treeW (by decide) rfl⟩

/-- `latex::Section` from the symbol table: level, owning command node
index, and title argument index (§3). -/
structure Section where
  level : Nat
  parent : Nat
  argIndex : Nat
deriving DecidableEq

/-- `LatexLabelKind`: how the producing command tagged the label. -/
inductive LatexLabelKind where
  | definition
  | reference
deriving DecidableEq

/-- A label symbol: owning node index, names, and kind.  `names` models
`label.names(&table)` as the rendered name texts. -/
structure Label where
  parent : Nat
  names : List String
  kind : LatexLabelKind
deriving DecidableEq

/-- One half of an environment pair; `name` models
`delim.name(&table).map(Token::text)`. -/
structure EnvDelim where
  parent : Nat
  name : Option String
deriving DecidableEq

/-- A paired `\begin`/`\end` environment record. -/
structure Environment where
  left : EnvDelim
  right : EnvDelim
deriving DecidableEq

/-- Modelled from the spec: the per-document symbol table (§3) with the
pieces the section tree consumes.  The symbol-table builder and the arena
tree-query API are not under `src/`; `nodeRanges` models the arena lookup
`table[idx].range()` and `printGroup` models
`table.print_group_content(node, group_kind, arg_index)` (§4.3). -/
structure SymbolTable where
  sections : List Section
  labels : List Label
  environments : List Environment
  nodeRanges : List Range
  printGroup : Nat → GroupKind → Nat → Option String

/-- `table[idx].range()` on the modelled arena. -/
def SymbolTable.nodeRange (t : SymbolTable) (i : Nat) : Range :=
  t.nodeRanges.getD i ⟨⟨0, 0⟩, ⟨0, 0⟩⟩

/-- `table[idx].start()` on the modelled arena. -/
def SymbolTable.nodeStart (t : SymbolTable) (i : Nat) : Position :=
  (t.nodeRange i).start

/-- Modelled from the spec: the BibTeX entry-type category payload of
`LatexSymbolKind::Entry`; opaque here, no claim inspects it. -/
structure BibtexEntryTypeCategory where
  tag : Nat
deriving DecidableEq

/-- `LatexSymbolKind` from `src/features/symbol/types.rs`. -/
inductive LatexSymbolKind where
  | section
  | figure
  | algorithm
  | table
  | listing
  | enumeration
  | enumerationItem
  | «theorem»
  | equation
  | entry (category : BibtexEntryTypeCategory)
  | field
  | string
deriving DecidableEq

/-- `LatexSymbol` from `src/features/symbol/types.rs`; recursive, so an
inductive rather than a structure. -/
inductive LatexSymbol where
  | mk (name : String) (label : Option String) (kind : LatexSymbolKind)
      (deprecated : Bool) (fullRange : Range) (selectionRange : Range)
      (children : List LatexSymbol)

/-- The `selection_range` field of a symbol. -/
def LatexSymbol.selectionRange : LatexSymbol → Range
  | .mk _ _ _ _ _ sel _ => sel

/-- `LatexSectionNode` from `src/features/symbol/section/mod.rs`; the
`table` and `full_text` references are passed explicitly here, so only
the owned fields remain. -/
inductive LatexSectionNode where
  | mk (sec : Section) (fullRange : Range) (label : Option String)
      (number : Option String) (symbols : List LatexSymbol)
      (children : List LatexSectionNode)

/-- The `section` field of a section node. -/
def LatexSectionNode.sectionOf : LatexSectionNode → Section
  | .mk s _ _ _ _ _ => s

/-- The `full_range` field of a section node. -/
def LatexSectionNode.fullRangeOf : LatexSectionNode → Range
  | .mk _ fr _ _ _ _ => fr

/-- The `label` field of a section node. -/
def LatexSectionNode.labelOf : LatexSectionNode → Option String
  | .mk _ _ lb _ _ _ => lb

/-- The `number` field of a section node. -/
def LatexSectionNode.numberOf : LatexSectionNode → Option String
  | .mk _ _ _ num _ _ => num

/-- The `symbols` field of a section node. -/
def LatexSectionNode.symbolsOf : LatexSectionNode → List LatexSymbol
  | .mk _ _ _ _ syms _ => syms

/-- The `children` field of a section node. -/
def LatexSectionNode.childrenOf : LatexSectionNode → List LatexSectionNode
  | .mk _ _ _ _ _ cs => cs

/-- `LatexSectionNode::new`: default full range, no label/number, no
symbols, no children. -/
def sectionNodeNew (s : Section) : LatexSectionNode :=
  .mk s ⟨⟨0, 0⟩, ⟨0, 0⟩⟩ none none [] []

/-- `LatexSectionNode::insert_section`.  The Rust code mutates
`nodes.last_mut()`; the translation walks to the final element of the
list, which is the same access. -/
def insertSection : List LatexSectionNode → Section → List LatexSectionNode
  | [], s => [sectionNodeNew s]
  | [.mk sec fr lb num syms children], s =>
    if sec.level < s.level then
      [.mk sec fr lb num syms (insertSection children s)]
    else
      [.mk sec fr lb num syms children, sectionNodeNew s]
  | n :: n' :: ns, s => n :: insertSection (n' :: ns) s

/-- `LatexSectionTree` (symbols and top-level section nodes). -/
structure LatexSectionTree where
  symbols : List LatexSymbol
  children : List LatexSectionNode

/-- `From<&latex::SymbolTable> for LatexSectionTree`: fold
`insert_section` over `table.sections` in source order. -/
def sectionTreeFrom (t : SymbolTable) : LatexSectionTree :=
  ⟨[], t.sections.foldl insertSection []⟩

mutual

/-- One step of `LatexSectionNode::set_full_range` on a single node:
assign `[own command start, currentEnd)` and recurse into the children
with the same bound. -/
def setFullRangeN (t : SymbolTable) (currentEnd : Position) :
    LatexSectionNode → LatexSectionNode
  | .mk sec _ lb num syms children =>
    .mk sec ⟨t.nodeStart sec.parent, currentEnd⟩ lb num syms
      (setFullRangeL t currentEnd children)

/-- `LatexSectionNode::set_full_range` over a sibling list: each node's
end is the next sibling's command start, the last node inheriting the
enclosing `end_position`. -/
def setFullRangeL (t : SymbolTable) (endPos : Position) :
    List LatexSectionNode → List LatexSectionNode
  | [] => []
  | n :: ns =>
    setFullRangeN t
      (match ns with
        | [] => endPos
        | n' :: _ => t.nodeStart n'.sectionOf.parent) n :: setFullRangeL t endPos ns

end

/-- `compute_end_position`: the start of the node closing a `document`
environment when the symbol table has one, else the end of the file.
Modelled from the spec: the `CharStream` end-of-file scan is not under
`src/`, so the end-of-file position is the parameter `eof`. -/
def computeEndPosition (t : SymbolTable) (eof : Position) : Position :=
  match t.environments.find? (fun env => env.left.name = some "document") with
  | some env => t.nodeStart env.right.parent
  | none => eof

/-- `LatexSectionNode::name`: the printed title of the section, or
`"Unknown"`. -/
def sectionName (t : SymbolTable) (s : Section) : String :=
  (t.printGroup s.parent GroupKind.group s.argIndex).getD "Unknown"

mutual

/-- `LatexSectionNode::insert_symbol`: fail fast unless `full_range`
contains the symbol's selection-range start; otherwise try the children
in order and keep the symbol here when no child takes it. -/
def nodeInsertSymbol (sym : LatexSymbol) :
    LatexSectionNode → LatexSectionNode × Bool
  | .mk sec fr lb num syms children =>
    if posIn sym.selectionRange.start fr then
      match childrenInsertSymbol sym children with
      | (children', true) => (.mk sec fr lb num syms children', true)
      | (_, false) => (.mk sec fr lb num (syms ++ [sym]) children, true)
    else (.mk sec fr lb num syms children, false)

/-- The child loop shared by `LatexSectionNode::insert_symbol` and
`LatexSectionTree::insert_symbol`: first child that accepts wins. -/
def childrenInsertSymbol (sym : LatexSymbol) :
    List LatexSectionNode → List LatexSectionNode × Bool
  | [] => ([], false)
  | c :: cs =>
    match nodeInsertSymbol sym c with
    | (c', true) => (c' :: cs, true)
    | (_, false) =>
      match childrenInsertSymbol sym cs with
      | (cs', b) => (c :: cs', b)

end

/-- `LatexSectionTree::insert_symbol`: try the top-level sections; a
symbol no section takes becomes a top-level item. -/
def treeInsertSymbol (tree : LatexSectionTree) (sym : LatexSymbol) :
    LatexSectionTree :=
  match childrenInsertSymbol sym tree.children with
  | (children', true) => ⟨tree.symbols, children'⟩
  | (children', false) => ⟨tree.symbols ++ [sym], children'⟩

/-- Modelled from the spec: the outline context resolved for a label from
the externally supplied label→(number, rendered context text, kind)
mapping (§6); only the section-text item shape matters here. -/
inductive OutlineContextItem where
  | section (text : String)
  | other
deriving DecidableEq

/-- Modelled from the spec: the result of `OutlineContext::parse`. -/
structure OutlineContext where
  item : OutlineContextItem
  number : Option String
deriving DecidableEq

mutual

/-- `LatexSectionNode::set_label`: find the first definition label whose
owning node starts inside this node's `full_range`; if the externally
resolved context is a section whose rendered text equals this section's
printed title, adopt the label's last name (if any) and the context's
number.  `parseCtx` models `OutlineContext::parse`, which is not under
`src/`. -/
def setLabelN (t : SymbolTable) (parseCtx : Label → Option OutlineContext) :
    LatexSectionNode → LatexSectionNode
  | .mk sec fr lb num syms children =>
    match (t.labels.filter (fun l => l.kind = LatexLabelKind.definition)).find?
        (fun l => posIn (t.nodeStart l.parent) fr) with
    | some label =>
      match parseCtx label with
      | some ctx =>
        match ctx.item with
        | .section text =>
          if sectionName t sec = text then
            .mk sec fr ((label.names.getLast?).elim lb some) ctx.number syms
              (setLabelL t parseCtx children)
          else
            .mk sec fr lb num syms (setLabelL t parseCtx children)
        | .other => .mk sec fr lb num syms (setLabelL t parseCtx children)
      | none => .mk sec fr lb num syms (setLabelL t parseCtx children)
    | none => .mk sec fr lb num syms (setLabelL t parseCtx children)

/-- `set_label` recursion over the children. -/
def setLabelL (t : SymbolTable) (parseCtx : Label → Option OutlineContext) :
    List LatexSectionNode → List LatexSectionNode
  | [] => []
  | n :: ns => setLabelN t parseCtx n :: setLabelL t parseCtx ns

end

/-- `build_section_tree`: build the forest, compute full ranges with the
end position, and resolve labels/numbers.  (`set_full_text` only stores a
reference used by no modelled component and is omitted;
`Outline::analyze` is folded into the `parseCtx` parameter.) -/
def buildSectionTree (t : SymbolTable) (eof : Position)
    (parseCtx : Label → Option OutlineContext) : LatexSectionTree :=
  let tree := sectionTreeFrom t
  let children := setFullRangeL t (computeEndPosition t eof) tree.children
  ⟨tree.symbols, setLabelL t parseCtx children⟩

/-- All parent/child edges of a built section forest in preorder: for
each node, the pair (its parent's section, or `none` at top level, its
own section). -/
def forestEdges (par : Option Section) : List LatexSectionNode → List (Option Section × Section)
  | [] => []
  | .mk sec _ _ _ _ children :: ns =>
    (par, sec) :: (forestEdges (some sec) children ++ forestEdges par ns)

/-- Modelled from the spec: the nearest preceding section with level
strictly less than the new section's level (§4.6). -/
def nearestSmallerLevel (prev : List Section) (s : Section) : Option Section :=
  (prev.reverse).find? (fun q => q.level < s.level)

/-- Modelled from the spec: the section-hierarchy rule in source order;
each section's parent is the nearest preceding section of strictly
smaller level, or none. -/
def specEdgesAux (prev : List Section) : List Section → List (Option Section × Section)
  | [] => []
  | s :: ss => (nearestSmallerLevel prev s, s) :: specEdgesAux (prev ++ [s]) ss

/-- The spec's parent assignment for a whole section sequence. -/
def specEdges (ss : List Section) : List (Option Section × Section) :=
  specEdgesAux [] ss

/-- The rightmost spine of a forest: the last top-level node, its last
child, and so on — the nodes `insert_section` can still extend. -/
def spineOf : List LatexSectionNode → List Section
  | [] => []
  | [.mk sec _ _ _ _ children] => sec :: spineOf children
  | _ :: n' :: ns => spineOf (n' :: ns)

/-- The classic section stack: pop while the top's level is not smaller,
then push. -/
def stackPush (st : List Section) (s : Section) : List Section :=
  st.takeWhile (fun q => q.level < s.level) ++ [s]

/-- The stack left after pushing a section sequence in order. -/
def stackOf (ss : List Section) : List Section :=
  ss.foldl stackPush []

/-- Where the spine walk of `insert_section` attaches a new section:
under the deepest spine node of strictly smaller level. -/
def spineAttach (sp : List Section) (s : Section) : Option Section :=
  (sp.takeWhile (fun q => q.level < s.level)).getLast?

theorem insertSection_ne_nil (F : List LatexSectionNode) (s : Section) :
    insertSection F s ≠ [] := by
  match F with
  | [] => simp [insertSection, sectionNodeNew]
  | [.mk sec fr lb num syms children] =>
    by_cases h : sec.level < s.level <;> simp [insertSection, h]
  | n :: n' :: ns => simp [insertSection]

theorem spineOf_single (sec : Section) (fr : Range) (lb num : Option String)
    (syms : List LatexSymbol) (children : List LatexSectionNode) :
    spineOf [.mk sec fr lb num syms children] = sec :: spineOf children := by
  simp [spineOf]

theorem spineOf_cons2 (a n' : LatexSectionNode) (ns : List LatexSectionNode) :
    spineOf (a :: n' :: ns) = spineOf (n' :: ns) := by
  simp [spineOf]

theorem insertSection_cons2 (a n' : LatexSectionNode)
    (ns : List LatexSectionNode) (s : Section) :
    insertSection (a :: n' :: ns) s = a :: insertSection (n' :: ns) s := by
  simp [insertSection]

theorem forestEdges_cons (par : Option Section) (sec : Section) (fr : Range)
    (lb num : Option String) (syms : List LatexSymbol)
    (children ns : List LatexSectionNode) :
    forestEdges par (.mk sec fr lb num syms children :: ns) =
      (par, sec) :: (forestEdges (some sec) children ++ forestEdges par ns) := by
  simp [forestEdges]

theorem spineOf_insertSection (F : List LatexSectionNode) (s : Section) :
    spineOf (insertSection F s) = stackPush (spineOf F) s := by
  match F with
  | [] => simp [insertSection, spineOf, stackPush, sectionNodeNew]
  | [.mk sec fr lb num syms children] =>
    by_cases h : sec.level < s.level
    · rw [insertSection, if_pos h, spineOf_single, spineOf_insertSection children s,
        spineOf_single]
      simp [stackPush, List.takeWhile_cons, h]
    · rw [insertSection, if_neg h, spineOf_cons2, spineOf_single]
      simp [spineOf, sectionNodeNew, stackPush, List.takeWhile_cons, h]
  | a :: n' :: ns =>
    rw [insertSection_cons2]
    have hne := insertSection_ne_nil (n' :: ns) s
    match hm : insertSection (n' :: ns) s with
    | [] => exact absurd hm hne
    | m :: ms =>
      rw [spineOf_cons2, ← hm, spineOf_insertSection (n' :: ns) s,
        show spineOf (a :: n' :: ns) = spineOf (n' :: ns) from spineOf_cons2 a n' ns]

theorem forestEdges_insertSection (F : List LatexSectionNode) (s : Section) :
    ∀ par, forestEdges par (insertSection F s) =
      forestEdges par F ++ [((spineAttach (spineOf F) s).elim par some, s)] := by
  match F with
  | [] =>
    intro par
    simp [insertSection, forestEdges, sectionNodeNew, spineOf, spineAttach]
  | [.mk sec fr lb num syms children] =>
    intro par
    by_cases h : sec.level < s.level
    · rw [insertSection, if_pos h, forestEdges_cons,
        forestEdges_insertSection children s (some sec), forestEdges_cons,
        spineOf_single]
      simp only [spineAttach, List.takeWhile_cons, decide_eq_true_eq, h,
        if_true, forestEdges, List.append_nil, List.cons_append,
        List.append_assoc, List.nil_append]
      rw [List.getLast?_cons]
      cases hg : ((spineOf children).takeWhile (fun q => q.level < s.level)).getLast? with
      | none =>
        simp only [List.getLast?_eq_none_iff] at hg
        simp [hg]
      | some q =>
        have hq : ((spineOf children).takeWhile
            (fun q => q.level < s.level)).getLast?.getD sec = q := by
          rw [hg]; rfl
        simp [hq, hg]
    · rw [insertSection, if_neg h, forestEdges_cons, forestEdges_cons,
        spineOf_single]
      simp [forestEdges, sectionNodeNew, spineAttach, List.takeWhile_cons, h]
  | a :: n' :: ns =>
    intro par
    rcases a with ⟨seca, fra, lba, numa, symsa, childa⟩
    rw [insertSection_cons2, spineOf_cons2]
    have hne := insertSection_ne_nil (n' :: ns) s
    match hm : insertSection (n' :: ns) s with
    | [] => exact absurd hm hne
    | m :: ms =>
      rcases m with ⟨secm, frm, lbm, numm, symsm, childm⟩
      rw [forestEdges_cons, ← hm, forestEdges_insertSection (n' :: ns) s par,
        forestEdges_cons]
      simp [List.append_assoc]

theorem takeWhile_append_all {α : Type} (p : α → Bool) :
    ∀ {xs : List α} (ys : List α), (∀ a ∈ xs, p a = true) →
      List.takeWhile p (xs ++ ys) = xs ++ List.takeWhile p ys := by
  intro xs
  induction xs with
  | nil => intro ys _; simp
  | cons x xs ih =>
    intro ys hall
    have hx := hall x (by simp)
    simp only [List.cons_append, List.takeWhile_cons, hx, if_true]
    rw [ih ys (fun a ha => hall a (by simp [ha]))]

theorem takeWhile_append_last_neg {α : Type} (p : α → Bool) :
    ∀ {xs : List α} {s : α}, p s = false →
      List.takeWhile p (xs ++ [s]) = List.takeWhile p xs := by
  intro xs
  induction xs with
  | nil => intro s hs; simp [List.takeWhile_cons, hs]
  | cons x xs ih =>
    intro s hs
    by_cases hx : p x
    · simp only [List.cons_append, List.takeWhile_cons, hx, if_true]
      rw [ih hs]
    · simp only [List.cons_append, List.takeWhile_cons]
      rw [Bool.not_eq_true] at hx
      simp [hx]

theorem takeWhile_takeWhile_weaker {α : Type} (p q : α → Bool)
    (himp : ∀ a, p a = true → q a = true) :
    ∀ (l : List α), List.takeWhile p (List.takeWhile q l) = List.takeWhile p l := by
  intro l
  induction l with
  | nil => simp
  | cons a l ih =>
    by_cases hq : q a
    · by_cases hp : p a
      · simp only [List.takeWhile_cons, hq, hp, if_true]
        rw [ih]
      · rw [Bool.not_eq_true] at hp
        simp [List.takeWhile_cons, hq, hp]
    · have hp : p a = false := by
        cases hpa : p a with
        | false => rfl
        | true => exact absurd (himp a hpa) hq
      rw [Bool.not_eq_true] at hq
      simp [List.takeWhile_cons, hq, hp]

theorem spineAttach_stackPush (st : List Section) (u s : Section) :
    spineAttach (stackPush st u) s =
      if u.level < s.level then some u else spineAttach st s := by
  by_cases h : u.level < s.level
  · rw [if_pos h]
    unfold spineAttach stackPush
    rw [takeWhile_append_all _ _ ?_]
    · simp [List.takeWhile_cons, h]
    · intro a ha
      have := List.mem_takeWhile_imp ha
      simp at this ⊢
      omega
  · rw [if_neg h]
    unfold spineAttach stackPush
    rw [takeWhile_append_last_neg _ (by simp; omega)]
    rw [takeWhile_takeWhile_weaker _ _ ?_]
    intro a ha
    simp at ha ⊢
    omega

theorem stackOf_append_one (ss : List Section) (u : Section) :
    stackOf (ss ++ [u]) = stackPush (stackOf ss) u := by
  unfold stackOf
  rw [List.foldl_append]
  rfl

theorem spineAttach_stackOf (ss : List Section) (s : Section) :
    spineAttach (stackOf ss) s = nearestSmallerLevel ss s := by
  induction ss using List.reverseRecOn with
  | nil => simp [stackOf, spineAttach, nearestSmallerLevel]
  | append_singleton ss u ih =>
    rw [stackOf_append_one, spineAttach_stackPush]
    unfold nearestSmallerLevel
    rw [List.reverse_append]
    simp only [List.reverse_singleton, List.singleton_append, List.find?_cons]
    by_cases h : u.level < s.level
    · simp [h]
    · simp only [h, if_neg, decide_eq_true_eq]
      rw [if_neg (by simpa using h)]
      exact ih

theorem spineOf_build (ss : List Section) :
    spineOf (ss.foldl insertSection []) = stackOf ss := by
  induction ss using List.reverseRecOn with
  | nil => simp [spineOf, stackOf]
  | append_singleton ss u ih =>
    rw [List.foldl_append, stackOf_append_one]
    simp only [List.foldl_cons, List.foldl_nil]
    rw [spineOf_insertSection, ih]

theorem specEdgesAux_append_one :
    ∀ (ss : List Section) (prev : List Section) (s : Section),
      specEdgesAux prev (ss ++ [s]) =
        specEdgesAux prev ss ++ [(nearestSmallerLevel (prev ++ ss) s, s)] := by
  intro ss
  induction ss with
  | nil => intro prev s; simp [specEdgesAux]
  | cons x ss ih =>
    intro prev s
    simp only [List.cons_append, specEdgesAux, List.append_eq]
    rw [ih (prev ++ [x]) s]
    simp [List.append_assoc]

/-- C4: the section forest built by folding
`LatexSectionNode::insert_section` over `sections` in source order has
exactly the spec's parent assignment: every section becomes a child of
the nearest preceding section of strictly smaller level, and a top-level
node when no such section precedes it.  Edges are compared in preorder,
which coincides with source order. -/
theorem insert_section_hierarchy (t : SymbolTable) :
    forestEdges none (sectionTreeFrom t).children = specEdges t.sections := by
  show forestEdges none (t.sections.foldl insertSection []) = specEdges t.sections
  induction t.sections using List.reverseRecOn with
  | nil => simp [forestEdges, specEdges, specEdgesAux]
  | append_singleton ss s ih =>
    rw [List.foldl_append]
    simp only [List.foldl_cons, List.foldl_nil]
    rw [forestEdges_insertSection _ s none, ih, spineOf_build,
      spineAttach_stackOf]
    unfold specEdges
    rw [specEdgesAux_append_one ss [] s]
    have : (nearestSmallerLevel ss s).elim none some = nearestSmallerLevel ss s := by
      cases nearestSmallerLevel ss s <;> rfl
    rw [this]
    simp [specEdges]

theorem setFullRangeL_get (t : SymbolTable) :
    ∀ (ns : List LatexSectionNode) (endPos : Position) (i : Nat)
      (n : LatexSectionNode),
      (setFullRangeL t endPos ns).get? i = some n →
      ∃ m, ns.get? i = some m ∧
        n.fullRangeOf.start = t.nodeStart m.sectionOf.parent ∧
        n.fullRangeOf.endPos = ((ns.get? (i + 1)).map
          (fun n' => t.nodeStart n'.sectionOf.parent)).getD endPos ∧
        n.sectionOf = m.sectionOf ∧
        n.childrenOf = setFullRangeL t n.fullRangeOf.endPos m.childrenOf := by
  intro ns
  induction ns with
  | nil =>
    intro endPos i n h
    simp [setFullRangeL] at h
  | cons m0 ms ih =>
    intro endPos i n h
    cases ms with
    | nil =>
      rw [show setFullRangeL t endPos [m0] = [setFullRangeN t endPos m0] from
        by simp [setFullRangeL]] at h
      cases i with
      | zero =>
        simp only [List.get?_cons_zero, Option.some.injEq] at h
        rcases m0 with ⟨sec, fr, lb, num, syms, children⟩
        refine ⟨.mk sec fr lb num syms children, rfl, ?_, ?_, ?_, ?_⟩ <;>
          rw [← h] <;>
          simp [setFullRangeN, LatexSectionNode.fullRangeOf,
            LatexSectionNode.sectionOf, LatexSectionNode.childrenOf]
      | succ j => simp at h
    | cons n1 ms' =>
      rw [show setFullRangeL t endPos (m0 :: n1 :: ms') =
          setFullRangeN t (t.nodeStart n1.sectionOf.parent) m0 ::
          setFullRangeL t endPos (n1 :: ms') from by simp [setFullRangeL]] at h
      cases i with
      | zero =>
        simp only [List.get?_cons_zero, Option.some.injEq] at h
        rcases m0 with ⟨sec, fr, lb, num, syms, children⟩
        refine ⟨.mk sec fr lb num syms children, rfl, ?_, ?_, ?_, ?_⟩ <;>
          rw [← h] <;>
          simp [setFullRangeN, LatexSectionNode.fullRangeOf,
            LatexSectionNode.sectionOf, LatexSectionNode.childrenOf]
      | succ j =>
        simp only [List.get?_cons_succ] at h
        obtain ⟨m, hm, h1, h2, h3, h4⟩ := ih endPos j n h
        exact ⟨m, by simpa using hm, h1, by simpa using h2, h3, h4⟩

/-- C6 (amended): in a built section tree, each node's `full_range`
starts at its own command start; its end is the start of its next
sibling when one exists, and otherwise the bound inherited from the
enclosing recursion — which for a top-level section is
`compute_end_position` (the start of the node closing a `document`
environment when the table has one, else the end of file), and for a
nested sibling list is the parent's own `full_range` end.  The children
are assigned with exactly this node's end as their bound. -/
theorem full_range_assignment (t : SymbolTable) (eof : Position)
    (ns : List LatexSectionNode) (i : Nat) (n : LatexSectionNode)
    (h : (setFullRangeL t (computeEndPosition t eof) ns).get? i = some n) :
    ∃ m, ns.get? i = some m ∧
      n.fullRangeOf.start = t.nodeStart m.sectionOf.parent ∧
      n.fullRangeOf.endPos = ((ns.get? (i + 1)).map
        (fun n' => t.nodeStart n'.sectionOf.parent)).getD
        (computeEndPosition t eof) ∧
      n.sectionOf = m.sectionOf ∧
      n.childrenOf = setFullRangeL t n.fullRangeOf.endPos m.childrenOf :=
  setFullRangeL_get t ns (computeEndPosition t eof) i n h

def secC6a : Section := ⟨1, 0, 0⟩

def secC6b : Section := ⟨2, 1, 0⟩

def secC6c : Section := ⟨1, 2, 0⟩

/-- A table with sections at levels 1, 2, 1 and no `document`
environment. -/
def tC6 : SymbolTable :=
  ⟨[secC6a, secC6b, secC6c], [], [],
    [⟨⟨0, 0⟩, ⟨0, 5⟩⟩, ⟨⟨1, 0⟩, ⟨1, 5⟩⟩, ⟨⟨2, 0⟩, ⟨2, 5⟩⟩],
    fun _ _ _ => none⟩

def eofC6 : Position := ⟨3, 0⟩

/-- The built and range-assigned forest for `tC6`. -/
def cexForestC6 : List LatexSectionNode :=
  setFullRangeL tC6 (computeEndPosition tC6 eofC6) (sectionTreeFrom tC6).children

theorem full_range_assignment_witness :
    (setFullRangeL tC6 (computeEndPosition tC6 eofC6)
        [.mk secC6a ⟨⟨0, 0⟩, ⟨0, 0⟩⟩ none none [] []]).get? 0 =
      some (.mk secC6a ⟨⟨0, 0⟩, ⟨3, 0⟩⟩ none none [] []) ∧
    ∃ m, ([LatexSectionNode.mk secC6a ⟨⟨0, 0⟩, ⟨0, 0⟩⟩ none none [] []].get? 0 =
        some m ∧
      (LatexSectionNode.mk secC6a ⟨⟨0, 0⟩, ⟨3, 0⟩⟩ none none
          [] []).fullRangeOf.start = tC6.nodeStart m.sectionOf.parent ∧
      (LatexSectionNode.mk secC6a ⟨⟨0, 0⟩, ⟨3, 0⟩⟩ none none
          [] []).fullRangeOf.endPos =
        (([LatexSectionNode.mk secC6a ⟨⟨0, 0⟩, ⟨0, 0⟩⟩ none none [] []].get?
          (0 + 1)).map (fun n' => tC6.nodeStart n'.sectionOf.parent)).getD
          (computeEndPosition tC6 eofC6) ∧
      (LatexSectionNode.mk secC6a ⟨⟨0, 0⟩, ⟨3, 0⟩⟩ none none
          [] []).sectionOf = m.sectionOf ∧
      (LatexSectionNode.mk secC6a ⟨⟨0, 0⟩, ⟨3, 0⟩⟩ none none
          [] []).childrenOf = setFullRangeL tC6
        (LatexSectionNode.mk secC6a ⟨⟨0, 0⟩, ⟨3, 0⟩⟩ none none
          [] []).fullRangeOf.endPos m.childrenOf) := by
  have hyp : (setFullRangeL tC6 (computeEndPosition tC6 eofC6)
      [.mk secC6a ⟨⟨0, 0⟩, ⟨0, 0⟩⟩ none none [] []]).get? 0 =
      some (.mk secC6a ⟨⟨0, 0⟩, ⟨3, 0⟩⟩ none none [] []) := by
    simp [setFullRangeL, setFullRangeN, computeEndPosition, tC6,
      SymbolTable.nodeStart, SymbolTable.nodeRange, secC6a, eofC6]
  exact ⟨hyp, full_range_assignment tC6 eofC6 _ 0 _ hyp⟩

/-- Counterexample to C6 as stated: in the forest built from sections at
levels 1, 2, 1 with no `document` environment, the level-2 node is the
last (and only) section in its sibling sequence, yet its `full_range`
ends at the start of the following level-1 section, `(2,0)`, not at the
end of file `(3,0)` that `compute_end_position` yields. -/
theorem full_range_last_sibling_cex :
    computeEndPosition tC6 eofC6 = ⟨3, 0⟩ ∧
    ((cexForestC6.get? 0).map
      (fun n => n.childrenOf.map LatexSectionNode.fullRangeOf)) =
      some [⟨⟨1, 0⟩, ⟨2, 0⟩⟩] ∧
    (⟨⟨1, 0⟩, ⟨2, 0⟩⟩ : Range).endPos ≠ computeEndPosition tC6 eofC6 := by
  refine ⟨?_, ?_, ?_⟩
  · simp [computeEndPosition, tC6, eofC6]
  · simp [cexForestC6, sectionTreeFrom, tC6, insertSection, sectionNodeNew,
      setFullRangeL, setFullRangeN, computeEndPosition, SymbolTable.nodeStart,
      SymbolTable.nodeRange, secC6a, secC6b, secC6c, eofC6,
      LatexSectionNode.childrenOf, LatexSectionNode.fullRangeOf,
      LatexSectionNode.sectionOf]
  · simp [computeEndPosition, tC6, eofC6]

/-- C7 (amended): for a freshly built node (no label or number yet), the
only candidate `set_label` ever consults is the FIRST definition label in
table order whose owning node's start lies in the node's `full_range`.
The node adopts that label's last name and the context's number exactly
when the externally resolved context is a section whose rendered text is
string-equal to the node's own printed title; in every other case —
including when a LATER contained definition label would have matched —
label and number remain unset.  Children are resolved recursively. -/
theorem set_label_first_match (t : SymbolTable)
    (pc : Label → Option OutlineContext) (sec : Section) (fr : Range)
    (syms : List LatexSymbol) (children : List LatexSectionNode) :
    setLabelN t pc (.mk sec fr none none syms children) =
      .mk sec fr
        (match (t.labels.filter
            (fun l => l.kind = LatexLabelKind.definition)).find?
            (fun l => posIn (t.nodeStart l.parent) fr) with
          | some l =>
            match pc l with
            | some ctx =>
              if ctx.item = OutlineContextItem.section (sectionName t sec) then
                l.names.getLast?
              else none
            | none => none
          | none => none)
        (match (t.labels.filter
            (fun l => l.kind = LatexLabelKind.definition)).find?
            (fun l => posIn (t.nodeStart l.parent) fr) with
          | some l =>
            match pc l with
            | some ctx =>
              if ctx.item = OutlineContextItem.section (sectionName t sec) then
                ctx.number
              else none
            | none => none
          | none => none)
        syms (setLabelL t pc children) := by
  cases hf : (t.labels.filter
      (fun l => l.kind = LatexLabelKind.definition)).find?
      (fun l => posIn (t.nodeStart l.parent) fr) with
  | none => simp [setLabelN, hf]
  | some l =>
    cases hpc : pc l with
    | none => simp [setLabelN, hf, hpc]
    | some ctx =>
      rcases ctx with ⟨item, number⟩
      cases item with
      | other => simp [setLabelN, hf, hpc]
      | «section» text =>
        by_cases ht : sectionName t sec = text
        · subst ht
          simp [setLabelN, hf, hpc]
          cases l.names.getLast? <;> simp
        · rw [show setLabelN t pc (.mk sec fr none none syms children) =
              .mk sec fr none none syms (setLabelL t pc children) from
            by simp [setLabelN, hf, hpc, ht]]
          have : ¬ (OutlineContextItem.section text =
              OutlineContextItem.section (sectionName t sec)) := by
            simp
            intro he
            exact ht he.symm
          simp [hf, hpc, this]

def secC7 : Section := ⟨1, 0, 0⟩

def labC7a : Label := ⟨1, ["lbl1"], LatexLabelKind.definition⟩

def labC7b : Label := ⟨2, ["lbl2"], LatexLabelKind.definition⟩

/-- Two definition labels inside the section's range; the external
mapping resolves only the second one (to a matching title). -/
def tC7 : SymbolTable :=
  ⟨[secC7], [labC7a, labC7b], [],
    [⟨⟨0, 0⟩, ⟨0, 5⟩⟩, ⟨⟨1, 0⟩, ⟨1, 5⟩⟩, ⟨⟨2, 0⟩, ⟨2, 5⟩⟩],
    fun p _ _ => if p = 0 then some "Title" else none⟩

def pcC7 : Label → Option OutlineContext :=
  fun l => if l.parent = 2 then
    some ⟨OutlineContextItem.section "Title", some "1.1"⟩ else none

def nodeC7 : LatexSectionNode :=
  .mk secC7 ⟨⟨0, 0⟩, ⟨3, 0⟩⟩ none none [] []

/-- Counterexample to C7 as stated: label `lbl2` is a definition label
whose owning node starts inside the section's `full_range`, the external
mapping has an entry for it whose rendered text equals the section's
printed title, and the entry carries a number — yet the section adopts
neither label nor number, because `set_label` only consults the FIRST
contained definition label (`lbl1`), for which the mapping has no
entry. -/
theorem set_label_exists_not_sufficient_cex :
    labC7b ∈ tC7.labels ∧
    labC7b.kind = LatexLabelKind.definition ∧
    posIn (tC7.nodeStart labC7b.parent) nodeC7.fullRangeOf ∧
    pcC7 labC7b = some ⟨OutlineContextItem.section "Title", some "1.1"⟩ ∧
    sectionName tC7 nodeC7.sectionOf = "Title" ∧
    labC7b.names ≠ [] ∧
    (setLabelN tC7 pcC7 nodeC7).labelOf = none ∧
    (setLabelN tC7 pcC7 nodeC7).numberOf = none := by
  refine ⟨by simp [tC7, labC7b], rfl, ?_, rfl, rfl, by simp [labC7b], ?_, ?_⟩
  · simp [tC7, labC7b, nodeC7, SymbolTable.nodeStart, SymbolTable.nodeRange,
      LatexSectionNode.fullRangeOf, posIn]
    decide
  · simp only [setLabelN, setLabelL, tC7, pcC7, nodeC7, labC7a, labC7b, secC7,
      SymbolTable.nodeStart, SymbolTable.nodeRange, List.find?,
      List.filter, LatexSectionNode.labelOf]
    decide
  · simp only [setLabelN, setLabelL, tC7, pcC7, nodeC7, labC7a, labC7b, secC7,
      SymbolTable.nodeStart, SymbolTable.nodeRange, List.find?,
      List.filter, LatexSectionNode.numberOf]
    decide

/-- Shift a path one sibling to the right. -/
def bump : List Nat → List Nat
  | [] => []
  | i :: r => (i + 1) :: r

mutual

/-- Modelled from the spec: the index paths of ALL nodes in this node's
subtree (itself included, at relative index 0) whose `full_range`
contains the position `p`. -/
def containPathsN (p : Position) : LatexSectionNode → List (List Nat)
  | .mk _ fr _ _ _ children =>
    (if posIn p fr then [[0]] else []) ++
      (containPathsL p children).map (fun q => 0 :: q)

/-- Modelled from the spec: the index paths of all nodes of the forest
whose `full_range` contains `p`. -/
def containPathsL (p : Position) : List LatexSectionNode → List (List Nat)
  | [] => []
  | c :: cs => containPathsN p c ++ (containPathsL p cs).map bump

end

/-- Modelled from the spec: the longest of the candidate paths — the
DEEPEST containing node; an earlier path wins a tie. -/
def longestPath : List (List Nat) → Option (List Nat)
  | [] => none
  | q :: rest =>
    match longestPath rest with
    | none => some q
    | some r => if q.length < r.length then some r else some q

/-- Append the symbol to the `symbols` of the node at the given index
path. -/
def attachAt (sym : LatexSymbol) :
    List LatexSectionNode → List Nat → List LatexSectionNode
  | F, [] => F
  | [], _ => []
  | .mk sec fr lb num syms children :: ns, [0] =>
    .mk sec fr lb num (syms ++ [sym]) children :: ns
  | .mk sec fr lb num syms children :: ns, 0 :: j :: rest =>
    .mk sec fr lb num syms (attachAt sym children (j :: rest)) :: ns
  | n :: ns, (i + 1) :: rest => n :: attachAt sym ns (i :: rest)

/-- Modelled from the spec: attach the symbol to the deepest section node
whose `full_range` contains the symbol's selection-range start; when no
node contains it, the symbol becomes a top-level item (§4.6). -/
def specTreeInsertSymbol (tree : LatexSectionTree) (sym : LatexSymbol) :
    LatexSectionTree :=
  match longestPath (containPathsL sym.selectionRange.start tree.children) with
  | some q => ⟨tree.symbols, attachAt sym tree.children q⟩
  | none => ⟨tree.symbols ++ [sym], tree.children⟩

/-- `start ≤ end` for a section range. -/
def rangeLeB (r : Range) : Bool := decide (r.start ≤ r.endPos)

/-- Endpoint containment of section ranges. -/
def rangeInB (inner outer : Range) : Bool :=
  decide (outer.start ≤ inner.start) && decide (inner.endPos ≤ outer.endPos)

/-- Sibling `full_range`s are ordered and disjoint, as in a built tree
(`sections` is in source order). -/
def siblingsOrdered : List LatexSectionNode → Bool
  | [] => true
  | [_] => true
  | c :: c' :: cs =>
    decide (c.fullRangeOf.endPos ≤ c'.fullRangeOf.start) &&
      siblingsOrdered (c' :: cs)

/-- Every child's `full_range` lies inside the given range. -/
def childrenContained (fr : Range) : List LatexSectionNode → Bool
  | [] => true
  | c :: cs => rangeInB c.fullRangeOf fr && childrenContained fr cs

mutual

/-- Well-formedness of one section node of a built tree: its range is
non-degenerate, the children's ranges are inside it, ordered, and the
children are themselves well-formed. -/
def secNodeWf : LatexSectionNode → Bool
  | .mk _ fr _ _ _ children =>
    rangeLeB fr && childrenContained fr children &&
      siblingsOrdered children && secNodesWf children

/-- All nodes of a forest are well-formed. -/
def secNodesWf : List LatexSectionNode → Bool
  | [] => true
  | c :: cs => secNodeWf c && secNodesWf cs

end

theorem posIn_of_rangeInB {inner outer : Range} {p : Position}
    (h : rangeInB inner outer = true) (hp : posIn p inner) : posIn p outer := by
  simp [rangeInB] at h
  exact ⟨Position.le_trans h.1 hp.1, Position.lt_of_lt_of_le hp.2 h.2⟩

theorem nodeInsertSymbol_not_contained {sym : LatexSymbol}
    {n : LatexSectionNode}
    (h : ¬ posIn sym.selectionRange.start n.fullRangeOf) :
    nodeInsertSymbol sym n = (n, false) := by
  rcases n with ⟨sec, fr, lb, num, syms, children⟩
  simp [LatexSectionNode.fullRangeOf] at h
  simp [nodeInsertSymbol, h]

theorem nodeInsertSymbol_contained {sym : LatexSymbol} {n : LatexSectionNode}
    (h : posIn sym.selectionRange.start n.fullRangeOf) :
    (nodeInsertSymbol sym n).2 = true := by
  rcases n with ⟨sec, fr, lb, num, syms, children⟩
  simp [LatexSectionNode.fullRangeOf] at h
  rw [show nodeInsertSymbol sym (.mk sec fr lb num syms children) =
      (match childrenInsertSymbol sym children with
        | (children', true) => (.mk sec fr lb num syms children', true)
        | (_, false) => (.mk sec fr lb num (syms ++ [sym]) children, true)) from
    by simp [nodeInsertSymbol, h]]
  match childrenInsertSymbol sym children with
  | (cs', true) => rfl
  | (cs', false) => rfl

theorem longestPath_eq_none {L : List (List Nat)} :
    longestPath L = none ↔ L = [] := by
  cases L with
  | nil => simp [longestPath]
  | cons q rest =>
    simp only [longestPath]
    cases longestPath rest with
    | none => simp
    | some r =>
      by_cases h : q.length < r.length <;> simp [h]

theorem longestPath_mem : ∀ {L : List (List Nat)} {r : List Nat},
    longestPath L = some r → r ∈ L := by
  intro L
  induction L with
  | nil => intro r h; simp [longestPath] at h
  | cons q rest ih =>
    intro r h
    simp only [longestPath] at h
    cases hrest : longestPath rest with
    | none => rw [hrest] at h; simp at h; simp [h]
    | some r' =>
      rw [hrest] at h
      have h' : (if q.length < r'.length then some r' else some q) = some r := h
      by_cases hl : q.length < r'.length
      · rw [if_pos hl] at h'
        simp at h'
        subst h'
        exact List.mem_cons_of_mem q (ih hrest)
      · rw [if_neg hl] at h'
        simp at h'
        simp [h']

theorem longestPath_map (f : List Nat → List Nat)
    (hf : ∀ a b : List Nat, (f a).length < (f b).length ↔ a.length < b.length) :
    ∀ L : List (List Nat), longestPath (L.map f) = (longestPath L).map f := by
  intro L
  induction L with
  | nil => simp [longestPath]
  | cons q rest ih =>
    simp only [List.map_cons, longestPath, ih]
    cases longestPath rest with
    | none => simp
    | some r =>
      have e1 : (match Option.map f (some r) with
          | none => some (f q)
          | some r => if (f q).length < r.length then some r else some (f q)) =
          (if (f q).length < (f r).length then some (f r) else some (f q)) := rfl
      rw [e1]
      rw [show (match some r with
          | none => some q
          | some r => if q.length < r.length then some r else some q) =
          (if q.length < r.length then some r else some q) from rfl]
      by_cases h : q.length < r.length
      · rw [if_pos ((hf q r).mpr h), if_pos h]; rfl
      · rw [if_neg (fun hc => h ((hf q r).mp hc)), if_neg h]; rfl

theorem containPathsN_ne_nil (p : Position) (n : LatexSectionNode) :
    ∀ q ∈ containPathsN p n, q ≠ [] := by
  rcases n with ⟨sec, fr, lb, num, syms, children⟩
  intro q hq
  rw [show containPathsN p (.mk sec fr lb num syms children) =
      (if posIn p fr then [[0]] else []) ++
        (containPathsL p children).map (fun q => 0 :: q) from
    by simp [containPathsN]] at hq
  rcases List.mem_append.mp hq with hq | hq
  · by_cases hc : posIn p fr
    · rw [if_pos hc] at hq; simp at hq; simp [hq]
    · rw [if_neg hc] at hq; simp at hq
  · obtain ⟨q', -, hq'⟩ := List.mem_map.mp hq
    rw [← hq']
    simp

theorem containPathsL_ne_nil (p : Position) :
    ∀ (F : List LatexSectionNode), ∀ q ∈ containPathsL p F, q ≠ [] := by
  intro F
  induction F with
  | nil => intro q hq; simp [containPathsL] at hq
  | cons c cs ih =>
    intro q hq
    rw [show containPathsL p (c :: cs) =
        containPathsN p c ++ (containPathsL p cs).map bump from
      by simp [containPathsL]] at hq
    rcases List.mem_append.mp hq with hq | hq
    · exact containPathsN_ne_nil p c q hq
    · obtain ⟨q', hq', hb⟩ := List.mem_map.mp hq
      have := ih q' hq'
      rw [← hb]
      cases q' with
      | nil => exact absurd rfl this
      | cons i r => simp [bump]

theorem containPathsL_empty (p : Position) :
    ∀ (F : List LatexSectionNode) (fr : Range),
      childrenContained fr F = true → secNodesWf F = true →
      ¬ posIn p fr → containPathsL p F = [] := by
  intro F
  match F with
  | [] =>
    intro fr _ _ _
    simp [containPathsL]
  | c :: cs =>
    intro fr hcont hwf hnc
    rcases c with ⟨sec, cfr, lb, num, syms, children⟩
    rw [show childrenContained fr (.mk sec cfr lb num syms children :: cs) =
        (rangeInB cfr fr && childrenContained fr cs) from
      by simp [childrenContained, LatexSectionNode.fullRangeOf]] at hcont
    rw [show secNodesWf (.mk sec cfr lb num syms children :: cs) =
        (secNodeWf (.mk sec cfr lb num syms children) && secNodesWf cs) from
      by simp [secNodesWf]] at hwf
    simp only [Bool.and_eq_true] at hcont hwf
    have hhwf := hwf.1
    rw [show secNodeWf (.mk sec cfr lb num syms children) =
        (rangeLeB cfr && childrenContained cfr children &&
          siblingsOrdered children && secNodesWf children) from
      by simp [secNodeWf]] at hhwf
    simp only [Bool.and_eq_true] at hhwf
    have hcnc : ¬ posIn p cfr := fun hc => hnc (posIn_of_rangeInB hcont.1 hc)
    rw [show containPathsL p (.mk sec cfr lb num syms children :: cs) =
        containPathsN p (.mk sec cfr lb num syms children) ++
          (containPathsL p cs).map bump from by simp [containPathsL]]
    rw [show containPathsN p (.mk sec cfr lb num syms children) =
        (if posIn p cfr then [[0]] else []) ++
          (containPathsL p children).map (fun q => 0 :: q) from
      by simp [containPathsN]]
    rw [if_neg hcnc]
    rw [containPathsL_empty p children cfr hhwf.1.1.2 hhwf.2 hcnc]
    rw [containPathsL_empty p cs fr hcont.2 hwf.2 hnc]
    simp

theorem containPathsN_empty (p : Position) (n : LatexSectionNode)
    (hwf : secNodeWf n = true) (hnc : ¬ posIn p n.fullRangeOf) :
    containPathsN p n = [] := by
  rcases n with ⟨sec, fr, lb, num, syms, children⟩
  simp only [LatexSectionNode.fullRangeOf] at hnc
  rw [show secNodeWf (.mk sec fr lb num syms children) =
      (rangeLeB fr && childrenContained fr children &&
        siblingsOrdered children && secNodesWf children) from
    by simp [secNodeWf]] at hwf
  simp only [Bool.and_eq_true] at hwf
  rw [show containPathsN p (.mk sec fr lb num syms children) =
      (if posIn p fr then [[0]] else []) ++
        (containPathsL p children).map (fun q => 0 :: q) from
    by simp [containPathsN]]
  rw [if_neg hnc, containPathsL_empty p children fr hwf.1.1.2 hwf.2 hnc]
  simp

theorem Position.lt_irrefl (a : Position) : ¬ a < a := by
  intro h
  rcases h with h | ⟨-, h⟩
  · exact Nat.lt_irrefl _ h
  · exact Nat.lt_irrefl _ h

theorem siblingsOrdered_tail {c : LatexSectionNode} {cs : List LatexSectionNode}
    (h : siblingsOrdered (c :: cs) = true) : siblingsOrdered cs = true := by
  cases cs with
  | nil => simp [siblingsOrdered]
  | cons c' cs' =>
    rw [show siblingsOrdered (c :: c' :: cs') =
        (decide (c.fullRangeOf.endPos ≤ c'.fullRangeOf.start) &&
          siblingsOrdered (c' :: cs')) from by simp [siblingsOrdered]] at h
    simp only [Bool.and_eq_true] at h
    exact h.2

theorem siblingsOrdered_head_bound {c : LatexSectionNode}
    {cs : List LatexSectionNode} (h : siblingsOrdered (c :: cs) = true) :
    ∀ hd ∈ cs.head?, c.fullRangeOf.endPos ≤ hd.fullRangeOf.start := by
  cases cs with
  | nil => simp
  | cons c' cs' =>
    rw [show siblingsOrdered (c :: c' :: cs') =
        (decide (c.fullRangeOf.endPos ≤ c'.fullRangeOf.start) &&
          siblingsOrdered (c' :: cs')) from by simp [siblingsOrdered]] at h
    intro hd hhd
    simp at hhd
    subst hhd
    simp only [Bool.and_eq_true] at h
    exact of_decide_eq_true h.1

theorem secNodesWf_cons {c : LatexSectionNode} {cs : List LatexSectionNode} :
    secNodesWf (c :: cs) = true ↔ secNodeWf c = true ∧ secNodesWf cs = true := by
  rw [show secNodesWf (c :: cs) = (secNodeWf c && secNodesWf cs) from
    by simp [secNodesWf]]
  simp

theorem secNodeWf_fields {sec : Section} {fr : Range} {lb num : Option String}
    {syms : List LatexSymbol} {children : List LatexSectionNode}
    (h : secNodeWf (.mk sec fr lb num syms children) = true) :
    rangeLeB fr = true ∧ childrenContained fr children = true ∧
      siblingsOrdered children = true ∧ secNodesWf children = true := by
  rw [show secNodeWf (.mk sec fr lb num syms children) =
      (rangeLeB fr && childrenContained fr children &&
        siblingsOrdered children && secNodesWf children) from
    by simp [secNodeWf]] at h
  simp only [Bool.and_eq_true] at h
  exact ⟨h.1.1.1, h.1.1.2, h.1.2, h.2⟩

theorem tail_not_contains (p : Position) :
    ∀ (cs : List LatexSectionNode) (e : Position), p < e →
      (∀ hd ∈ cs.head?, e ≤ hd.fullRangeOf.start) →
      siblingsOrdered cs = true → secNodesWf cs = true →
      ∀ c' ∈ cs, ¬ posIn p c'.fullRangeOf := by
  intro cs
  induction cs with
  | nil => intro e _ _ _ _ c' hc'; simp at hc'
  | cons c cs' ih =>
    intro e hpe hb hord hwf c' hc'
    have hbc : e ≤ c.fullRangeOf.start := hb c (by simp)
    have hwf2 := secNodesWf_cons.mp hwf
    rcases List.mem_cons.mp hc' with hc' | hc'
    · subst hc'
      intro hcon
      have h1 : p < c'.fullRangeOf.start := Position.lt_of_lt_of_le hpe hbc
      exact Position.lt_irrefl p (Position.lt_of_lt_of_le h1 hcon.1)
    · have hce : rangeLeB c.fullRangeOf = true := by
        rcases c with ⟨sec, fr, lb, num, syms, children⟩
        exact (secNodeWf_fields hwf2.1).1
      refine ih c.fullRangeOf.endPos ?_ (siblingsOrdered_head_bound hord)
        (siblingsOrdered_tail hord) hwf2.2 c' hc'
      exact Position.lt_of_lt_of_le hpe
        (Position.le_trans hbc (of_decide_eq_true hce))

theorem containPathsL_empty_each (p : Position) :
    ∀ F : List LatexSectionNode, secNodesWf F = true →
      (∀ c ∈ F, ¬ posIn p c.fullRangeOf) → containPathsL p F = [] := by
  intro F
  induction F with
  | nil => intro _ _; simp [containPathsL]
  | cons c cs ih =>
    intro hwf hnc
    have hwf2 := secNodesWf_cons.mp hwf
    rw [show containPathsL p (c :: cs) =
        containPathsN p c ++ (containPathsL p cs).map bump from
      by simp [containPathsL]]
    rw [containPathsN_empty p c hwf2.1 (hnc c (by simp)),
      ih hwf2.2 (fun c' hc' => hnc c' (List.mem_cons_of_mem c hc'))]
    simp

theorem contains_head_tail_empty (p : Position) {c : LatexSectionNode}
    {cs : List LatexSectionNode} (hord : siblingsOrdered (c :: cs) = true)
    (hwf : secNodesWf (c :: cs) = true) (hcon : posIn p c.fullRangeOf) :
    containPathsL p cs = [] := by
  have hwf2 := secNodesWf_cons.mp hwf
  refine containPathsL_empty_each p cs hwf2.2 ?_
  exact tail_not_contains p cs c.fullRangeOf.endPos hcon.2
    (siblingsOrdered_head_bound hord) (siblingsOrdered_tail hord) hwf2.2

theorem childrenInsert_spec (sym : LatexSymbol) :
    ∀ F : List LatexSectionNode,
      siblingsOrdered F = true → secNodesWf F = true →
      (match longestPath (containPathsL sym.selectionRange.start F) with
        | some q => childrenInsertSymbol sym F = (attachAt sym F q, true)
        | none => childrenInsertSymbol sym F = (F, false)) := by
  intro F
  match F with
  | [] =>
    intro _ _
    rw [show containPathsL sym.selectionRange.start
        ([] : List LatexSectionNode) = [] from by simp [containPathsL]]
    exact (by simp [childrenInsertSymbol] :
      childrenInsertSymbol sym ([] : List LatexSectionNode) = ([], false))
  | c :: cs =>
    intro hord hwf
    have hwf2 := secNodesWf_cons.mp hwf
    by_cases hcon : posIn sym.selectionRange.start c.fullRangeOf
    · have htail := contains_head_tail_empty sym.selectionRange.start hord hwf hcon
      rcases c with ⟨sec, fr, lb, num, syms, children⟩
      have hcf := secNodeWf_fields hwf2.1
      have ihch := childrenInsert_spec sym children hcf.2.2.1 hcf.2.2.2
      have hcone : posIn sym.selectionRange.start fr := by
        simpa [LatexSectionNode.fullRangeOf] using hcon
      have hpaths : containPathsL sym.selectionRange.start
          (.mk sec fr lb num syms children :: cs) =
          [0] :: (containPathsL sym.selectionRange.start children).map
            (fun q => 0 :: q) := by
        rw [show containPathsL sym.selectionRange.start
            (.mk sec fr lb num syms children :: cs) =
            containPathsN sym.selectionRange.start
              (.mk sec fr lb num syms children) ++
              (containPathsL sym.selectionRange.start cs).map bump from
          by simp [containPathsL]]
        rw [htail,
          show containPathsN sym.selectionRange.start
            (.mk sec fr lb num syms children) =
            (if posIn sym.selectionRange.start fr then [[0]] else []) ++
              (containPathsL sym.selectionRange.start children).map
                (fun q => 0 :: q) from by simp [containPathsN]]
        rw [if_pos hcone]
        simp
      cases hlc : longestPath
          (containPathsL sym.selectionRange.start children) with
      | none =>
        have ihch' : childrenInsertSymbol sym children = (children, false) := by
          rw [hlc] at ihch; exact ihch
        have hlong : longestPath (containPathsL sym.selectionRange.start
            (.mk sec fr lb num syms children :: cs)) = some [0] := by
          rw [hpaths,
            show longestPath ([0] :: (containPathsL sym.selectionRange.start
                children).map (fun q => 0 :: q)) =
              (match longestPath ((containPathsL sym.selectionRange.start
                  children).map (fun q => 0 :: q)) with
                | none => some [0]
                | some r => if ([0] : List Nat).length < r.length then some r
                    else some [0]) from by simp [longestPath],
            longestPath_map (fun q => 0 :: q) (by intro a b; simp), hlc]
          rfl
        rw [hlong]
        have hnode : nodeInsertSymbol sym (.mk sec fr lb num syms children) =
            (.mk sec fr lb num (syms ++ [sym]) children, true) := by
          simp [nodeInsertSymbol, hcone, ihch']
        show childrenInsertSymbol sym (.mk sec fr lb num syms children :: cs) =
          (attachAt sym (.mk sec fr lb num syms children :: cs) [0], true)
        rw [show attachAt sym (.mk sec fr lb num syms children :: cs) [0] =
            .mk sec fr lb num (syms ++ [sym]) children :: cs from
          by simp [attachAt]]
        simp [childrenInsertSymbol, hnode]
      | some q' =>
        have hne : q' ≠ [] :=
          containPathsL_ne_nil sym.selectionRange.start children q'
            (longestPath_mem hlc)
        rcases q' with - | ⟨j, rest⟩
        · exact absurd rfl hne
        have ihch' : childrenInsertSymbol sym children =
            (attachAt sym children (j :: rest), true) := by
          rw [hlc] at ihch; exact ihch
        have hlong : longestPath (containPathsL sym.selectionRange.start
            (.mk sec fr lb num syms children :: cs)) =
            some (0 :: j :: rest) := by
          rw [hpaths,
            show longestPath ([0] :: (containPathsL sym.selectionRange.start
                children).map (fun q => 0 :: q)) =
              (match longestPath ((containPathsL sym.selectionRange.start
                  children).map (fun q => 0 :: q)) with
                | none => some [0]
                | some r => if ([0] : List Nat).length < r.length then some r
                    else some [0]) from by simp [longestPath],
            longestPath_map (fun q => 0 :: q) (by intro a b; simp), hlc]
          rw [show Option.map (fun q => 0 :: q) (some (j :: rest)) =
            some (0 :: j :: rest) from rfl]
          rw [show (match some (0 :: j :: rest) with
              | none => some ([0] : List Nat)
              | some r => if ([0] : List Nat).length < r.length then some r
                  else some [0]) =
            (if ([0] : List Nat).length < (0 :: j :: rest).length then
              some (0 :: j :: rest) else some [0]) from rfl]
          rw [if_pos (by simp)]
        rw [hlong]
        have hnode : nodeInsertSymbol sym (.mk sec fr lb num syms children) =
            (.mk sec fr lb num syms (attachAt sym children (j :: rest)),
              true) := by
          simp [nodeInsertSymbol, hcone, ihch']
        show childrenInsertSymbol sym (.mk sec fr lb num syms children :: cs) =
          (attachAt sym (.mk sec fr lb num syms children :: cs)
            (0 :: j :: rest), true)
        rw [show attachAt sym (.mk sec fr lb num syms children :: cs)
            (0 :: j :: rest) =
            .mk sec fr lb num syms (attachAt sym children (j :: rest)) :: cs
          from by simp [attachAt]]
        simp [childrenInsertSymbol, hnode]
    · have hN := containPathsN_empty sym.selectionRange.start c hwf2.1 hcon
      have ihtail := childrenInsert_spec sym cs (siblingsOrdered_tail hord)
        hwf2.2
      have hnodef : nodeInsertSymbol sym c = (c, false) :=
        nodeInsertSymbol_not_contained hcon
      have hpaths : containPathsL sym.selectionRange.start (c :: cs) =
          (containPathsL sym.selectionRange.start cs).map bump := by
        rw [show containPathsL sym.selectionRange.start (c :: cs) =
            containPathsN sym.selectionRange.start c ++
              (containPathsL sym.selectionRange.start cs).map bump from
          by simp [containPathsL], hN]
        simp
      have hbumplen : ∀ a b : List Nat,
          (bump a).length < (bump b).length ↔ a.length < b.length := by
        intro a b
        cases a <;> cases b <;> simp [bump]
      cases hlc : longestPath (containPathsL sym.selectionRange.start cs) with
      | none =>
        have ihtail' : childrenInsertSymbol sym cs = (cs, false) := by
          rw [hlc] at ihtail; exact ihtail
        have hlong : longestPath (containPathsL sym.selectionRange.start
            (c :: cs)) = none := by
          rw [hpaths, longestPath_map bump hbumplen, hlc]
          rfl
        rw [hlong]
        show childrenInsertSymbol sym (c :: cs) = (c :: cs, false)
        simp [childrenInsertSymbol, hnodef, ihtail']
      | some q =>
        have hne : q ≠ [] :=
          containPathsL_ne_nil sym.selectionRange.start cs q
            (longestPath_mem hlc)
        rcases q with - | ⟨i, rest⟩
        · exact absurd rfl hne
        have ihtail' : childrenInsertSymbol sym cs =
            (attachAt sym cs (i :: rest), true) := by
          rw [hlc] at ihtail; exact ihtail
        have hlong : longestPath (containPathsL sym.selectionRange.start
            (c :: cs)) = some ((i + 1) :: rest) := by
          rw [hpaths, longestPath_map bump hbumplen, hlc]
          rfl
        rw [hlong]
        show childrenInsertSymbol sym (c :: cs) =
          (attachAt sym (c :: cs) ((i + 1) :: rest), true)
        rw [show attachAt sym (c :: cs) ((i + 1) :: rest) =
            c :: attachAt sym cs (i :: rest) from by simp [attachAt]]
        simp [childrenInsertSymbol, hnodef, ihtail']

/-- C5: on a built section tree — sibling `full_range`s ordered and
disjoint, children's ranges nested inside their parent's — inserting a
non-section symbol attaches it exactly as the spec says: to the deepest
section node whose `full_range` contains the symbol's selection-range
start, and as a top-level item when no section's `full_range` contains
it. -/
theorem insert_symbol_deepest (tree : LatexSectionTree) (sym : LatexSymbol)
    (hord : siblingsOrdered tree.children = true)
    (hwf : secNodesWf tree.children = true) :
    treeInsertSymbol tree sym = specTreeInsertSymbol tree sym := by
  have h := childrenInsert_spec sym tree.children hord hwf
  cases hlc : longestPath
      (containPathsL sym.selectionRange.start tree.children) with
  | some q =>
    rw [hlc] at h
    have h' : childrenInsertSymbol sym tree.children =
        (attachAt sym tree.children q, true) := h
    show (match childrenInsertSymbol sym tree.children with
      | (children', true) => LatexSectionTree.mk tree.symbols children'
      | (children', false) =>
          LatexSectionTree.mk (tree.symbols ++ [sym]) children') =
      specTreeInsertSymbol tree sym
    rw [h']
    simp [specTreeInsertSymbol, hlc]
  | none =>
    rw [hlc] at h
    have h' : childrenInsertSymbol sym tree.children =
        (tree.children, false) := h
    show (match childrenInsertSymbol sym tree.children with
      | (children', true) => LatexSectionTree.mk tree.symbols children'
      | (children', false) =>
          LatexSectionTree.mk (tree.symbols ++ [sym]) children') =
      specTreeInsertSymbol tree sym
    rw [h']
    simp [specTreeInsertSymbol, hlc]

def nodeC5 : LatexSectionNode :=
  .mk ⟨1, 0, 0⟩ ⟨⟨0, 0⟩, ⟨2, 0⟩⟩ none none []
    [.mk ⟨2, 1, 0⟩ ⟨⟨1, 0⟩, ⟨2, 0⟩⟩ none none [] []]

def treeC5 : LatexSectionTree := ⟨[], [nodeC5]⟩

def symC5 : LatexSymbol :=
  .mk "Equation" none LatexSymbolKind.equation false ⟨⟨1, 1⟩, ⟨1, 5⟩⟩
    ⟨⟨1, 1⟩, ⟨1, 5⟩⟩ []

theorem insert_symbol_deepest_witness :
    siblingsOrdered treeC5.children = true ∧
    secNodesWf treeC5.children = true ∧
    treeInsertSymbol treeC5 symC5 = specTreeInsertSymbol treeC5 symC5 := by
  have h1 : siblingsOrdered treeC5.children = true := by
    simp [treeC5, nodeC5, siblingsOrdered]
  have h2 : secNodesWf treeC5.children = true := by
    simp [treeC5, nodeC5, secNodesWf, secNodeWf, childrenContained,
      siblingsOrdered, rangeLeB, rangeInB, LatexSectionNode.fullRangeOf]
    decide
  exact ⟨h1, h2, insert_symbol_deepest treeC5 symC5 h1 h2⟩

end Texlab
